import Mathlib

/-
Verification of the SN98 ForeverMoney validator core against its design
specification.

This file shallowly embeds the relevant parts of the Python sources and
proves (or refutes) the specified properties:

  * protocol data model (`Position`, `Inventory`) — the module
    protocol/models.py is absent from the source tree, so the two record
    types are modelled from the spec (section 3: a Position is lower/upper
    tick bounds plus two raw-integer allocation amounts; an Inventory is
    two raw-integer token balances).  Everywhere the Python code stores
    these amounts as strings and converts with int(), the embedding uses
    integers directly.
  * validator/backtester.py — UniswapV3Math integer liquidity math,
    the liquidity-share computation, and the final-metrics section of
    evaluate_positions_performance.
  * validator/orchestrator/round_loops.py — the rebalance-tolerance check
    and the per-step commit/reject logic of the three simulation loops.
  * validator/services/scorer.py — score_pol_strategy.
  * validator/orchestrator/winner.py — select_winner.
  * validator/utils/crypto.py — base-58 and SS58 decoding, together with
    a concrete blake2b-512 implementation used for closed test vectors.

Python floats are modelled as rationals where only field arithmetic and
order are used, and as reals where exp/log are involved.  Python integer
floor division (//) is modelled by Int.fdiv.
-/

set_option maxRecDepth 16384

/-! ## Data model (protocol/models.py is not in the source tree)

Modelled from the spec, section 3: "Position: an immutable value —
lower/upper tick bounds and two allocation amounts (raw integer token
units, arbitrary precision)"; "Inventory: two non-negative raw integer
token balances available for new deployments". -/

structure Position where
  tick_lower : ℤ
  tick_upper : ℤ
  allocation0 : ℤ
  allocation1 : ℤ
  deriving DecidableEq, Repr

structure Inventory where
  amount0 : ℤ
  amount1 : ℤ
  deriving DecidableEq, Repr

/-! ## UniswapV3Math (validator/backtester.py, lines 33-167)

The two integer-arithmetic conversions between token amounts and
liquidity.  Python // on nonnegative-divisor operands is floor division,
embedded as Int.fdiv. -/

def Q96 : ℤ := 2 ^ 96

/-- Embeds UniswapV3Math.get_liquidity_for_amounts
(validator/backtester.py lines 70-122): liquidity from token amounts and
a sqrt-price range, with the standard three-region split. -/
def get_liquidity_for_amounts (sqrt_price_x96 sqrt_price_a_x96 sqrt_price_b_x96
    amount0 amount1 : ℤ) : ℤ :=
  -- Ensure a < b
  let sa := if sqrt_price_a_x96 > sqrt_price_b_x96 then sqrt_price_b_x96 else sqrt_price_a_x96
  let sb := if sqrt_price_a_x96 > sqrt_price_b_x96 then sqrt_price_a_x96 else sqrt_price_b_x96
  if sqrt_price_x96 ≤ sa then
    -- Price below range - all liquidity in token0
    if sb = sa then 0
    else max 0 ((amount0 * sa * sb).fdiv ((sb - sa) * Q96))
  else if sqrt_price_x96 < sb then
    -- Price in range - liquidity in both tokens
    let liquidity0 :=
      if sb > sqrt_price_x96 then
        (amount0 * sqrt_price_x96 * sb).fdiv ((sb - sqrt_price_x96) * Q96)
      else 0
    let liquidity1 :=
      if sqrt_price_x96 > sa then (amount1 * Q96).fdiv (sqrt_price_x96 - sa)
      else 0
    -- Use minimum to ensure we don't exceed either token
    max 0 (if liquidity0 > 0 ∧ liquidity1 > 0 then min liquidity0 liquidity1
           else max liquidity0 liquidity1)
  else
    -- Price above range - all liquidity in token1
    if sb = sa then 0
    else max 0 ((amount1 * Q96).fdiv (sb - sa))

/-- Embeds UniswapV3Math.get_amounts_for_liquidity
(validator/backtester.py lines 124-167): token amounts recoverable from a
liquidity value over a sqrt-price range. -/
def get_amounts_for_liquidity (sqrt_price_x96 sqrt_price_a_x96 sqrt_price_b_x96
    liquidity : ℤ) : ℤ × ℤ :=
  -- Ensure a < b
  let sa := if sqrt_price_a_x96 > sqrt_price_b_x96 then sqrt_price_b_x96 else sqrt_price_a_x96
  let sb := if sqrt_price_a_x96 > sqrt_price_b_x96 then sqrt_price_a_x96 else sqrt_price_b_x96
  if liquidity ≤ 0 then (0, 0)
  else if sqrt_price_x96 ≤ sa then
    -- Price below range - all in token0
    if sa = 0 ∨ sb = 0 then (0, 0)
    else (max 0 ((liquidity * (sb - sa) * Q96).fdiv (sa * sb)), max 0 0)
  else if sqrt_price_x96 < sb then
    -- Price in range
    if sqrt_price_x96 = 0 ∨ sb = 0 then (0, 0)
    else (max 0 ((liquidity * (sb - sqrt_price_x96) * Q96).fdiv (sqrt_price_x96 * sb)),
          max 0 ((liquidity * (sqrt_price_x96 - sa)).fdiv Q96))
  else
    -- Price above range - all in token1
    (max 0 0, max 0 ((liquidity * (sb - sa)).fdiv Q96))

/-- Claim C6 (amended).  For sqrt prices 0 < sa < sp < sb (a Position with
tick_lower < tick_upper and a price strictly inside the range) and
non-negative amounts a0, a1, composing get_amounts_for_liquidity with
get_liquidity_for_amounts at the same price and bounds yields amounts
r0 <= a0 and r1 <= a1, PROVIDED both single-sided liquidity candidates
(liquidity0 from a0 and liquidity1 from a1) are positive, so that the code
takes the min branch.  The original claim, quantified over all pairs of
non-negative amounts, fails when one candidate is zero (see the
counterexample): the code then takes the max branch and can over-deploy
the other token. -/
theorem C6_liquidity_amounts_roundtrip_le
    (sp sa sb a0 a1 : ℤ)
    (hsa : 0 < sa) (h1 : sa < sp) (h2 : sp < sb)
    (ha0 : 0 ≤ a0) (ha1 : 0 ≤ a1)
    (hL0 : 0 < (a0 * sp * sb).fdiv ((sb - sp) * Q96))
    (hL1 : 0 < (a1 * Q96).fdiv (sp - sa)) :
    (get_amounts_for_liquidity sp sa sb (get_liquidity_for_amounts sp sa sb a0 a1)).1 ≤ a0 ∧
    (get_amounts_for_liquidity sp sa sb (get_liquidity_for_amounts sp sa sb a0 a1)).2 ≤ a1 := by
  have hQ : (0:ℤ) < Q96 := by norm_num [Q96]
  have hsp : 0 < sp := hsa.trans h1
  have hsb : 0 < sb := hsp.trans h2
  have hnotswap : ¬ (sa > sb) := not_lt.mpr (le_of_lt (h1.trans h2))
  have hd1 : (0:ℤ) < (sb - sp) * Q96 := mul_pos (by omega) hQ
  have hd2 : (0:ℤ) < sp * sb := mul_pos hsp hsb
  have hd3 : (0:ℤ) < sp - sa := by omega
  set L0 := (a0 * sp * sb).fdiv ((sb - sp) * Q96) with hL0def
  set L1 := (a1 * Q96).fdiv (sp - sa) with hL1def
  have hminpos : 0 < min L0 L1 := lt_min hL0 hL1
  have hliq : get_liquidity_for_amounts sp sa sb a0 a1 = min L0 L1 := by
    unfold get_liquidity_for_amounts
    simp only [if_neg hnotswap, if_neg (not_le.mpr h1), if_pos h2, if_pos h1,
      gt_iff_lt, ← hL0def, ← hL1def]
    rw [if_pos ⟨hL0, hL1⟩]
    exact max_eq_right (le_of_lt hminpos)
  have hamts : get_amounts_for_liquidity sp sa sb (min L0 L1) =
      (max 0 (((min L0 L1) * (sb - sp) * Q96).fdiv (sp * sb)),
       max 0 (((min L0 L1) * (sp - sa)).fdiv Q96)) := by
    unfold get_amounts_for_liquidity
    simp only [if_neg hnotswap, if_neg (not_le.mpr hminpos), if_neg (not_le.mpr h1),
      if_pos h2]
    rw [if_neg]
    push_neg
    exact ⟨ne_of_gt hsp, ne_of_gt hsb⟩
  rw [hliq, hamts]
  have s2 : L0 * ((sb - sp) * Q96) ≤ a0 * sp * sb := by
    have h := Int.ediv_mul_le (a0 * sp * sb) (ne_of_gt hd1)
    rw [hL0def, Int.fdiv_eq_ediv _ (le_of_lt hd1)]
    linarith [h]
  have s4 : L1 * (sp - sa) ≤ a1 * Q96 := by
    have h := Int.ediv_mul_le (a1 * Q96) (ne_of_gt hd3)
    rw [hL1def, Int.fdiv_eq_ediv _ (le_of_lt hd3)]
    linarith [h]
  constructor
  · apply max_le ha0
    rw [Int.fdiv_eq_ediv _ (le_of_lt hd2)]
    calc ((min L0 L1) * (sb - sp) * Q96) / (sp * sb)
        ≤ (a0 * sp * sb) / (sp * sb) := by
          apply Int.ediv_le_ediv hd2
          calc (min L0 L1) * (sb - sp) * Q96
              = (min L0 L1) * ((sb - sp) * Q96) := by ring
            _ ≤ L0 * ((sb - sp) * Q96) :=
                mul_le_mul_of_nonneg_right (min_le_left L0 L1) (le_of_lt hd1)
            _ ≤ a0 * sp * sb := s2
      _ = a0 := by
          rw [mul_assoc]
          exact Int.mul_ediv_cancel a0 (ne_of_gt hd2)
  · apply max_le ha1
    rw [Int.fdiv_eq_ediv _ (le_of_lt hQ)]
    calc ((min L0 L1) * (sp - sa)) / Q96
        ≤ (a1 * Q96) / Q96 := by
          apply Int.ediv_le_ediv hQ
          calc (min L0 L1) * (sp - sa)
              ≤ L1 * (sp - sa) :=
                mul_le_mul_of_nonneg_right (min_le_right L0 L1) (le_of_lt hd3)
            _ ≤ a1 * Q96 := s4
      _ = a1 := Int.mul_ediv_cancel a1 (ne_of_gt hQ)

/-- Claim C6 counterexample: with bounds Q96 < 2*Q96 < 4*Q96 (price strictly
inside the range) and non-negative amounts a0 = Q96, a1 = 0, the
round-trip returns a token1 amount strictly greater than a1 = 0: the
claimed no-over-deployment property fails as stated. -/
theorem C6_counterexample :
    (0:ℤ) < Q96 ∧ Q96 < 2 * Q96 ∧ 2 * Q96 < 4 * Q96 ∧ ((0:ℤ) ≤ Q96 ∧ (0:ℤ) ≤ 0) ∧
    ¬ ((get_amounts_for_liquidity (2 * Q96) Q96 (4 * Q96)
        (get_liquidity_for_amounts (2 * Q96) Q96 (4 * Q96) Q96 0)).2 ≤ 0) := by
  decide

/-- Witness for C6: the amended round-trip bound applied at the concrete
input sp = 2*Q96, sa = Q96, sb = 4*Q96, a0 = a1 = Q96, where both
single-sided liquidity candidates are positive. -/
theorem C6_witness :
    (get_amounts_for_liquidity (2 * Q96) Q96 (4 * Q96)
       (get_liquidity_for_amounts (2 * Q96) Q96 (4 * Q96) Q96 Q96)).1 ≤ Q96 ∧
    (get_amounts_for_liquidity (2 * Q96) Q96 (4 * Q96)
       (get_liquidity_for_amounts (2 * Q96) Q96 (4 * Q96) Q96 Q96)).2 ≤ Q96 :=
  C6_liquidity_amounts_roundtrip_le (2 * Q96) Q96 (4 * Q96) Q96 Q96
    (by decide) (by decide) (by decide) (by decide) (by decide) (by decide) (by decide)

/-! ## Rebalance tolerance check (validator/orchestrator/round_loops.py, lines 25-61) -/

def REBALANCE_TOLERANCE : ℚ := 2 / 100

/-- Embeds within_tolerance as defined at round_loops.py lines 30-35:
true when a and b are within relative tolerance.  The Python float
division and the 0.02 literal are modelled exactly in the rationals. -/
def within_tolerance (a b : ℤ) (tolerance : ℚ) : Bool :=
  if a = b then true
  else
    let denom : ℚ := max (max (|a| : ℚ) (|b| : ℚ)) 1
    decide (|(a : ℚ) - (b : ℚ)| / denom ≤ tolerance)

def rangeKey (p : Position) : ℤ × ℤ := (p.tick_lower, p.tick_upper)

/-- Models the Python dict comprehension at round_loops.py line 49,
current_by_range keyed by (tick_lower, tick_upper): a later position with
the same tick range overwrites an earlier one, so a lookup returns the
last matching element of the list. -/
def lookupByRange (ps : List Position) (k : ℤ × ℤ) : Option Position :=
  ps.reverse.find? (fun p => rangeKey p == k)

/-- Embeds positions_within_tolerance (round_loops.py lines 38-61): true
when desired positions are within tolerance of current, comparing tick
ranges and the two allocations of positions sharing a range. -/
def positions_within_tolerance (current desired : List Position)
    (tolerance : ℚ) : Bool :=
  if current.length ≠ desired.length then false
  else desired.all fun d =>
    match lookupByRange current (rangeKey d) with
    | none => false
    | some c =>
        within_tolerance c.allocation0 d.allocation0 tolerance &&
        within_tolerance c.allocation1 d.allocation1 tolerance

theorem within_tolerance_self (a : ℤ) (t : ℚ) : within_tolerance a a t = true := by
  simp [within_tolerance]

theorem within_tolerance_comm (a b : ℤ) (t : ℚ) :
    within_tolerance a b t = within_tolerance b a t := by
  unfold within_tolerance
  by_cases h : a = b
  · subst h; simp
  · rw [if_neg h, if_neg (fun hh => h hh.symm)]
    have h1 : |(a : ℚ) - (b : ℚ)| = |(b : ℚ) - (a : ℚ)| := abs_sub_comm _ _
    have h2 : max (max (|a| : ℚ) (|b| : ℚ)) 1 = max (max (|b| : ℚ) (|a| : ℚ)) 1 := by
      rw [max_comm (|a| : ℚ)]
    rw [h1, h2]

theorem lookup_mem_of_eq_some {ps : List Position} {k : ℤ × ℤ} {c : Position}
    (h : lookupByRange ps k = some c) : c ∈ ps ∧ rangeKey c = k := by
  unfold lookupByRange at h
  refine ⟨List.mem_reverse.mp (List.mem_of_find?_eq_some h), ?_⟩
  have := List.find?_some h
  simpa using this

theorem find_key_eq_some {l : List Position} {d : Position}
    (hnd : (l.map rangeKey).Nodup) (hd : d ∈ l) :
    l.find? (fun p => rangeKey p == rangeKey d) = some d := by
  induction l with
  | nil => cases hd
  | cons x xs ih =>
    rcases List.mem_cons.mp hd with hdx | hdm
    · subst hdx
      simp [List.find?_cons_of_pos]
    · have hne : ¬ (rangeKey x == rangeKey d) = true := by
        intro hb
        have hkey : rangeKey x = rangeKey d := by simpa using hb
        have hmem : rangeKey d ∈ xs.map rangeKey := List.mem_map_of_mem rangeKey hdm
        rw [← hkey] at hmem
        exact (List.nodup_cons.mp (by simpa using hnd)).1 hmem
      rw [List.find?_cons_of_neg xs hne]
      exact ih (by simpa using (List.nodup_cons.mp (by simpa using hnd)).2) hdm

theorem lookup_eq_some_of_mem_nodup {ps : List Position} {d : Position}
    (hnd : (ps.map rangeKey).Nodup) (hd : d ∈ ps) :
    lookupByRange ps (rangeKey d) = some d := by
  unfold lookupByRange
  exact find_key_eq_some
    (by rw [List.map_reverse, List.nodup_reverse]; exact hnd)
    (List.mem_reverse.mpr hd)

/-- Claim C4 counterexample: the tolerance check is not reflexive.  For the
list P containing two positions with the SAME tick range (0, 1) but very
different allocations (100 versus 10000), the dict keyed by tick range
keeps only the last position, so comparing P against itself compares the
first position against the second and fails the 2 percent check:
_positions_within_tolerance(P, P) is false. -/
theorem C4_counterexample :
    positions_within_tolerance
      [⟨0, 1, 100, 100⟩, ⟨0, 1, 10000, 10000⟩]
      [⟨0, 1, 100, 100⟩, ⟨0, 1, 10000, 10000⟩] REBALANCE_TOLERANCE = false := by
  norm_num [positions_within_tolerance, lookupByRange, rangeKey, within_tolerance,
    REBALANCE_TOLERANCE, List.find?]

/-- Claim C4 (amended).  The rebalance tolerance check is strict on size:
lists of different lengths are never within tolerance.  It is reflexive
and symmetric PROVIDED each list has pairwise-distinct tick ranges;
with duplicate tick ranges the dict keyed by (tick_lower, tick_upper)
collapses positions and both reflexivity and symmetry can fail (see the
counterexample).  Allocations of positions sharing a tick range are
compared componentwise under the relative tolerance. -/
theorem C4_tolerance_check_amended :
    (∀ (A B : List Position) (t : ℚ), A.length ≠ B.length →
        positions_within_tolerance A B t = false) ∧
    (∀ (P : List Position) (t : ℚ), (P.map rangeKey).Nodup →
        positions_within_tolerance P P t = true) ∧
    (∀ (A B : List Position) (t : ℚ), (A.map rangeKey).Nodup →
        (B.map rangeKey).Nodup →
        positions_within_tolerance A B t = positions_within_tolerance B A t) := by
  refine ⟨?_, ?_, ?_⟩
  · intro A B t h
    unfold positions_within_tolerance
    rw [if_pos h]
  · intro P t hnd
    unfold positions_within_tolerance
    rw [if_neg (by simp)]
    rw [List.all_eq_true]
    intro d hd
    rw [lookup_eq_some_of_mem_nodup hnd hd]
    simp [within_tolerance_self]
  · have key : ∀ (A B : List Position) (t : ℚ), (A.map rangeKey).Nodup →
        (B.map rangeKey).Nodup → positions_within_tolerance A B t = true →
        positions_within_tolerance B A t = true := by
      intro A B t hA hB hf
      unfold positions_within_tolerance at hf ⊢
      have hlen : A.length = B.length := by
        by_contra hne
        rw [if_pos hne] at hf
        simp at hf
      rw [if_neg (by omega)] at hf
      rw [if_neg (by omega)]
      rw [List.all_eq_true] at hf
      rw [List.all_eq_true]
      intro c hc
      have hsub : (B.map rangeKey).toFinset ⊆ (A.map rangeKey).toFinset := by
        intro k hk
        rw [List.mem_toFinset, List.mem_map] at hk
        obtain ⟨d, hdB, hkd⟩ := hk
        have hfd := hf d hdB
        cases hl : lookupByRange A (rangeKey d) with
        | none => rw [hl] at hfd; exact absurd hfd (by simp)
        | some cd =>
          obtain ⟨hcdA, hkey⟩ := lookup_mem_of_eq_some hl
          rw [List.mem_toFinset, List.mem_map]
          exact ⟨cd, hcdA, by rw [hkey, hkd]⟩
      have hcard : (A.map rangeKey).toFinset.card ≤ (B.map rangeKey).toFinset.card := by
        rw [List.toFinset_card_of_nodup hA, List.toFinset_card_of_nodup hB]
        simp [hlen]
      have heq := Finset.eq_of_subset_of_card_le hsub hcard
      have hkc : rangeKey c ∈ (A.map rangeKey).toFinset := by
        rw [List.mem_toFinset]
        exact List.mem_map_of_mem rangeKey hc
      rw [← heq, List.mem_toFinset, List.mem_map] at hkc
      obtain ⟨d, hdB, hkd⟩ := hkc
      have hlookB : lookupByRange B (rangeKey c) = some d := by
        rw [← hkd]
        exact lookup_eq_some_of_mem_nodup hB hdB
      rw [hlookB]
      have hlookA : lookupByRange A (rangeKey d) = some c := by
        rw [hkd]
        exact lookup_eq_some_of_mem_nodup hA hc
      have hchecks := hf d hdB
      rw [hlookA, Bool.and_eq_true] at hchecks
      rw [Bool.and_eq_true]
      constructor
      · rw [within_tolerance_comm]
        exact hchecks.1
      · rw [within_tolerance_comm]
        exact hchecks.2
    intro A B t hA hB
    cases hab : positions_within_tolerance A B t with
    | true => exact (key A B t hA hB hab).symm
    | false =>
      cases hba : positions_within_tolerance B A t with
      | true =>
        rw [key B A t hB hA hba] at hab
        exact hab.symm
      | false => rfl

/-- Witness for C4: the amended theorem applied at concrete inputs, a
singleton list against itself (reflexivity, distinct ranges trivially)
and a length-1 list against an empty list (size mismatch). -/
theorem C4_witness :
    positions_within_tolerance
      [(⟨0, 1, 5, 5⟩ : Position)] [(⟨0, 1, 5, 5⟩ : Position)] REBALANCE_TOLERANCE = true ∧
    positions_within_tolerance [(⟨0, 1, 5, 5⟩ : Position)] [] REBALANCE_TOLERANCE = false :=
  ⟨C4_tolerance_check_amended.2.1 [⟨0, 1, 5, 5⟩] REBALANCE_TOLERANCE (by decide),
   C4_tolerance_check_amended.1 [⟨0, 1, 5, 5⟩] [] REBALANCE_TOLERANCE (by decide)⟩

/-! ## Simulation loops (validator/orchestrator/round_loops.py, lines 93-649)

The loop bodies are embedded as step functions over explicit per-miner
state.  Wall-clock deadline checks, block advancement, sleeps, logging and
the network query itself are abstracted into the list of step inputs the
loop is driven through; each step input carries the data the body reads
(block number, the two price fetches, the miner response).  The function
UniswapV3Math.position_liquidity_and_used_amounts is imported from
validator/utils/math.py, which is not in the source tree, so the loop
embeddings are parametric in it (posUsed); every theorem below holds for
every choice of that function.  Python floats (prices, score) are
modelled as rationals. -/

structure RebalanceResponse where
  accepted : Bool
  refusal_reason : Option String
  desired_positions : Option (List Position)
  deriving DecidableEq, Repr

/-- A rebalance history entry as appended by the loops (round_loops.py
lines 222-229, 411-418 and 610-619; the live loop additionally stores
execution_id and tx_hash, passthrough metadata omitted here). -/
structure RebalanceEntry where
  block : ℤ
  price : ℚ
  price_in_query : ℚ
  old_positions : List Position
  new_positions : List Position
  inventory : Inventory
  deriving DecidableEq, Repr

structure MinerSimState where
  positions : List Position
  inventory : Inventory
  history : List RebalanceEntry
  rebalances_so_far : ℕ
  deriving DecidableEq, Repr

/-- The signature of UniswapV3Math.position_liquidity_and_used_amounts
restricted to the used amounts (the liquidity component is discarded by
all three call sites): tick_lower, tick_upper, price, allocation0,
allocation1 to (used_amount0, used_amount1). -/
def UsedAmountsFn : Type := ℤ → ℤ → ℚ → ℤ → ℤ → ℤ × ℤ

/-- The accumulation of used amounts over the proposed positions
(round_loops.py lines 197-207, 394-404, 594-604). -/
def total_used_amounts (posUsed : UsedAmountsFn) (price : ℚ)
    (ps : List Position) : ℤ × ℤ :=
  ps.foldl
    (fun t pos =>
      let r := posUsed pos.tick_lower pos.tick_upper price
        pos.allocation0 pos.allocation1
      (t.1 + r.1, t.2 + r.2))
    (0, 0)

/-- The result dict returned by run_with_miner_for_evaluation when it
returns from inside the loop (performance_metrics is then the empty
dict, omitted; score appears only in the desired_positions=None branch). -/
structure EvalResult where
  accepted : Bool
  refusal_reason : Option String
  rebalance_history : List RebalanceEntry
  final_positions : List Position
  score : Option ℚ
  deriving DecidableEq, Repr

inductive EvalStepOutcome where
  | finished (r : EvalResult)
  | next (st : MinerSimState)
  deriving DecidableEq, Repr

/-- Embeds one pass of the rebalance-check body of
run_with_miner_for_evaluation (round_loops.py lines 150-231).  Note that
the inventory check subtracts this proposal's total used amounts from the
ROUND-INITIAL inventory (lines 208-209), not from the current one. -/
def eval_step_single (posUsed : UsedAmountsFn) (initial_inventory : Inventory)
    (st : MinerSimState) (current_block : ℤ)
    (price_at_query rebalance_price : ℚ)
    (response : Option RebalanceResponse) : EvalStepOutcome :=
  match response with
  | none =>
      .finished ⟨false, some "Timeout or error", st.history, st.positions, none⟩
  | some resp =>
      if ¬ resp.accepted then
        .finished ⟨false, resp.refusal_reason, st.history, st.positions, none⟩
      else
        match resp.desired_positions with
        | none =>
            .finished ⟨false, some "No desired positions (miner not running)",
              st.history, st.positions, some 0⟩
        | some desired =>
            if positions_within_tolerance st.positions desired REBALANCE_TOLERANCE then
              .next st
            else
              let t := total_used_amounts posUsed rebalance_price desired
              let amount_0_int := initial_inventory.amount0 - t.1
              let amount_1_int := initial_inventory.amount1 - t.2
              if amount_0_int < 0 ∨ amount_1_int < 0 then
                .finished ⟨false, none, st.history, st.positions, none⟩
              else
                let new_inventory : Inventory := ⟨amount_0_int, amount_1_int⟩
                .next ⟨desired, new_inventory,
                  st.history ++ [⟨current_block, rebalance_price, price_at_query,
                    st.positions, desired, new_inventory⟩],
                  st.rebalances_so_far + 1⟩

/-- Per-miner state within run_with_miners_batch_for_evaluation: a miner
is either still active or recorded in per_miner_refused with its reason
(the stored reason may itself be None). -/
structure BatchMinerState where
  refused : Option (Option String)
  sim : MinerSimState
  deriving DecidableEq, Repr

/-- Embeds the per-miner part of one rebalance step of
run_with_miners_batch_for_evaluation (round_loops.py lines 340-426): a
refused miner is skipped (query_one returns None and the result loop
continues); otherwise the response is classified exactly as in the
source.  The inventory check subtracts from the miner's CURRENT
inventory (lines 405-406). -/
def batch_step (posUsed : UsedAmountsFn) (st : BatchMinerState)
    (current_block : ℤ) (price_at_query rebalance_price : ℚ)
    (response : Option RebalanceResponse) : BatchMinerState :=
  if st.refused.isSome then st
  else
    match response with
    | none => { st with refused := some (some "Timeout or error") }
    | some resp =>
        if ¬ resp.accepted then { st with refused := some resp.refusal_reason }
        else
          match resp.desired_positions with
          | none => { st with refused := some (some "Miner not running") }
          | some desired =>
              if positions_within_tolerance st.sim.positions desired
                  REBALANCE_TOLERANCE then st
              else
                let t := total_used_amounts posUsed rebalance_price desired
                let inv_0 := st.sim.inventory.amount0 - t.1
                let inv_1 := st.sim.inventory.amount1 - t.2
                if inv_0 < 0 ∨ inv_1 < 0 then
                  let reason : Option String :=
                    some "Insufficient inventory from desired positions"
                  { st with refused := some reason }
                else
                  let new_inventory : Inventory := ⟨inv_0, inv_1⟩
                  { refused := none,
                    sim := ⟨desired, new_inventory,
                      st.sim.history ++ [⟨current_block, rebalance_price,
                        price_at_query, st.sim.positions, desired, new_inventory⟩],
                      st.sim.rebalances_so_far + 1⟩ }

structure BatchStepInput where
  block : ℤ
  price_at_query : ℚ
  rebalance_price : ℚ
  response : Option RebalanceResponse
  deriving DecidableEq, Repr

def run_batch_miner (posUsed : UsedAmountsFn) (st : BatchMinerState)
    (steps : List BatchStepInput) : BatchMinerState :=
  steps.foldl
    (fun s i => batch_step posUsed s i.block i.price_at_query i.rebalance_price
      i.response) st

def initial_batch_state (initial_positions : List Position)
    (initial_inventory : Inventory) : BatchMinerState :=
  ⟨none, ⟨initial_positions, initial_inventory, [], 0⟩⟩

/-- The per-miner result dict built after the batched loop
(round_loops.py lines 441-491).  The performance metrics type and the
backtester and scorer are parameters; the float score is modelled as a
rational. -/
structure BatchMinerResult (μ : Type) where
  accepted : Bool
  refusal_reason : Option String
  rebalance_history : List RebalanceEntry
  final_positions : List Position
  performance_metrics : Option μ
  score : ℚ
  deriving Repr

/-- Embeds the result assembly of run_with_miners_batch_for_evaluation
for one miner (round_loops.py lines 441-491): refused miners get
accepted=False with empty history and score 0.0; unrefused miners with
an empty history get accepted=True with score 0.0 and no backtest;
otherwise the backtester and scorer run. -/
def build_batch_result {μ : Type} (backtest : List RebalanceEntry → μ)
    (scorefn : μ → ℚ) (st : BatchMinerState) : BatchMinerResult μ :=
  match st.refused with
  | some reason =>
      { accepted := false, refusal_reason := reason, rebalance_history := [],
        final_positions := st.sim.positions, performance_metrics := none,
        score := 0 }
  | none =>
      if st.sim.history.isEmpty then
        { accepted := true, refusal_reason := none, rebalance_history := [],
          final_positions := st.sim.positions, performance_metrics := none,
          score := 0 }
      else
        let m := backtest st.sim.history
        { accepted := true, refusal_reason := none,
          rebalance_history := st.sim.history,
          final_positions := st.sim.positions,
          performance_metrics := some m, score := scorefn m }

structure LiveState where
  sim : MinerSimState
  execution_failures : ℕ
  deriving DecidableEq, Repr

/-- Embeds one pass of the rebalance-check body of run_with_miner_for_live
(round_loops.py lines 543-627).  exec_success is the outcome of the
execute_strategy_onchain call; on success the inventory is CLAMPED at
zero with max(0, initial minus used) (lines 605-606) and the entry is
appended; on failure only the failure counter advances. -/
def live_step (posUsed : UsedAmountsFn) (initial_inventory : Inventory)
    (st : LiveState) (current_block : ℤ) (price_at_query rebalance_price : ℚ)
    (response : Option RebalanceResponse) (exec_success : Bool) : LiveState :=
  match response with
  | none => st
  | some resp =>
      if resp.accepted then
        match resp.desired_positions with
        | none => st
        | some desired =>
            if positions_within_tolerance st.sim.positions desired
                REBALANCE_TOLERANCE then st
            else if exec_success then
              let t := total_used_amounts posUsed rebalance_price desired
              let amount_0_int := max 0 (initial_inventory.amount0 - t.1)
              let amount_1_int := max 0 (initial_inventory.amount1 - t.2)
              let new_inventory : Inventory := ⟨amount_0_int, amount_1_int⟩
              { sim := ⟨desired, new_inventory,
                  st.sim.history ++ [⟨current_block, rebalance_price,
                    price_at_query, st.sim.positions, desired, new_inventory⟩],
                  st.sim.rebalances_so_far + 1⟩,
                execution_failures := st.execution_failures }
            else
              { st with execution_failures := st.execution_failures + 1 }
      else st

/-- Claim C1 (amended).  Inventory is never negative after any committed
rebalance.  In the single-miner evaluation loop a negative computed
inventory (round-initial amounts minus the proposal's total used amounts)
rejects the step: the loop returns a non-accepted result with the history
and positions unchanged; any step it commits appends an entry whose
inventory has both amounts non-negative.  The batched loop behaves the
same with the miner's current inventory.  The LIVE loop, contrary to the
original claim, does NOT reject a negative computed inventory: it clamps
both amounts at zero with max(0, .) and commits the entry (see the
counterexample); its committed entries therefore also always carry
non-negative inventory. -/
theorem C1_inventory_nonneg_amended :
    (∀ (posUsed : UsedAmountsFn) (initInv : Inventory) (st : MinerSimState)
        (b : ℤ) (pq rp : ℚ) (rr : Option String) (desired : List Position),
      positions_within_tolerance st.positions desired REBALANCE_TOLERANCE = false →
      (initInv.amount0 - (total_used_amounts posUsed rp desired).1 < 0 ∨
       initInv.amount1 - (total_used_amounts posUsed rp desired).2 < 0) →
      eval_step_single posUsed initInv st b pq rp (some ⟨true, rr, some desired⟩) =
        .finished ⟨false, none, st.history, st.positions, none⟩) ∧
    (∀ (posUsed : UsedAmountsFn) (initInv : Inventory) (st : MinerSimState)
        (b : ℤ) (pq rp : ℚ) (resp : Option RebalanceResponse) (st' : MinerSimState),
      eval_step_single posUsed initInv st b pq rp resp = .next st' →
      st' = st ∨ ∃ e : RebalanceEntry,
        st'.history = st.history ++ [e] ∧ 0 ≤ e.inventory.amount0 ∧
        0 ≤ e.inventory.amount1 ∧ st'.inventory = e.inventory) ∧
    (∀ (posUsed : UsedAmountsFn) (st : BatchMinerState)
        (b : ℤ) (pq rp : ℚ) (rr : Option String) (desired : List Position),
      st.refused = none →
      positions_within_tolerance st.sim.positions desired REBALANCE_TOLERANCE = false →
      (st.sim.inventory.amount0 - (total_used_amounts posUsed rp desired).1 < 0 ∨
       st.sim.inventory.amount1 - (total_used_amounts posUsed rp desired).2 < 0) →
      batch_step posUsed st b pq rp (some ⟨true, rr, some desired⟩) =
        { st with refused := some (some "Insufficient inventory from desired positions") }) ∧
    (∀ (posUsed : UsedAmountsFn) (st : BatchMinerState)
        (b : ℤ) (pq rp : ℚ) (resp : Option RebalanceResponse),
      (batch_step posUsed st b pq rp resp).sim.history = st.sim.history ∨
      ∃ e : RebalanceEntry,
        (batch_step posUsed st b pq rp resp).sim.history = st.sim.history ++ [e] ∧
        0 ≤ e.inventory.amount0 ∧ 0 ≤ e.inventory.amount1 ∧
        (batch_step posUsed st b pq rp resp).sim.inventory = e.inventory) ∧
    (∀ (posUsed : UsedAmountsFn) (initInv : Inventory) (st : LiveState)
        (b : ℤ) (pq rp : ℚ) (resp : Option RebalanceResponse) (es : Bool),
      (live_step posUsed initInv st b pq rp resp es).sim.history = st.sim.history ∨
      ∃ e : RebalanceEntry,
        (live_step posUsed initInv st b pq rp resp es).sim.history =
          st.sim.history ++ [e] ∧
        0 ≤ e.inventory.amount0 ∧ 0 ≤ e.inventory.amount1 ∧
        (live_step posUsed initInv st b pq rp resp es).sim.inventory = e.inventory) := by
  refine ⟨?_, ?_, ?_, ?_, ?_⟩
  · intro posUsed initInv st b pq rp rr desired htol hneg
    simp only [eval_step_single, Bool.not_true, ite_false, htol, if_false,
      Bool.false_eq_true]
    rw [if_pos hneg]
    simp
  · intro posUsed initInv st b pq rp resp st' h
    match resp with
    | none => simp [eval_step_single] at h
    | some ⟨false, rr, dp⟩ => simp [eval_step_single] at h
    | some ⟨true, rr, none⟩ => simp [eval_step_single] at h
    | some ⟨true, rr, some desired⟩ =>
      simp only [eval_step_single, Bool.not_true, Bool.false_eq_true, if_false] at h
      by_cases htol : positions_within_tolerance st.positions desired REBALANCE_TOLERANCE
      · rw [if_pos htol] at h
        cases h
        exact Or.inl rfl
      · rw [if_neg htol] at h
        by_cases hneg : initInv.amount0 - (total_used_amounts posUsed rp desired).1 < 0 ∨
            initInv.amount1 - (total_used_amounts posUsed rp desired).2 < 0
        · rw [if_pos hneg] at h
          cases h
        · rw [if_neg hneg] at h
          cases h
          push_neg at hneg
          refine Or.inr ⟨⟨b, rp, pq, st.positions, desired,
            ⟨initInv.amount0 - (total_used_amounts posUsed rp desired).1,
             initInv.amount1 - (total_used_amounts posUsed rp desired).2⟩⟩,
            rfl, by simpa using hneg.1, by simpa using hneg.2, rfl⟩
  · intro posUsed st b pq rp rr desired href htol hneg
    simp only [batch_step, href, Option.isSome_none, Bool.false_eq_true, if_false,
      Bool.not_true, ite_false, htol, not_true]
    rw [if_pos hneg]
  · intro posUsed st b pq rp resp
    by_cases href : st.refused.isSome
    · left
      simp [batch_step, href]
    · match resp with
      | none => left; simp [batch_step, href]
      | some ⟨false, rr, dp⟩ => left; simp [batch_step, href]
      | some ⟨true, rr, none⟩ => left; simp [batch_step, href]
      | some ⟨true, rr, some desired⟩ =>
        simp only [batch_step, href, Bool.false_eq_true, if_false, Bool.not_true,
          ite_false, not_true]
        by_cases htol : positions_within_tolerance st.sim.positions desired
            REBALANCE_TOLERANCE
        · left
          rw [if_pos htol]
        · rw [if_neg htol]
          by_cases hneg :
              st.sim.inventory.amount0 - (total_used_amounts posUsed rp desired).1 < 0 ∨
              st.sim.inventory.amount1 - (total_used_amounts posUsed rp desired).2 < 0
          · left
            rw [if_pos hneg]
          · rw [if_neg hneg]
            push_neg at hneg
            refine Or.inr ⟨⟨b, rp, pq, st.sim.positions, desired,
              ⟨st.sim.inventory.amount0 - (total_used_amounts posUsed rp desired).1,
               st.sim.inventory.amount1 - (total_used_amounts posUsed rp desired).2⟩⟩,
              rfl, by simpa using hneg.1, by simpa using hneg.2, rfl⟩
  · intro posUsed initInv st b pq rp resp es
    match resp with
    | none => left; simp [live_step]
    | some ⟨false, rr, dp⟩ => left; simp [live_step]
    | some ⟨true, rr, none⟩ => left; simp [live_step]
    | some ⟨true, rr, some desired⟩ =>
      simp only [live_step, if_true]
      by_cases htol : positions_within_tolerance st.sim.positions desired
          REBALANCE_TOLERANCE
      · left
        rw [if_pos htol]
      · rw [if_neg htol]
        cases es with
        | false => left; simp
        | true =>
          rw [if_pos rfl]
          refine Or.inr ⟨⟨b, rp, pq, st.sim.positions, desired,
            ⟨max 0 (initInv.amount0 - (total_used_amounts posUsed rp desired).1),
             max 0 (initInv.amount1 - (total_used_amounts posUsed rp desired).2)⟩⟩,
            rfl, le_max_left 0 _, le_max_left 0 _, rfl⟩

/-- Claim C1 counterexample: in the live loop, a proposal using 100 of
token0 against an initial inventory of 10 yields a negative computed
amount, yet the step is committed: a history entry is appended with the
inventory clamped to zero, refuting "if either result is negative the
step is rejected and not committed" for the live loop. -/
theorem C1_counterexample :
    (10 : ℤ) - (total_used_amounts (fun _ _ _ a0 a1 => (a0, a1)) 0
      [⟨0, 1, 100, 100⟩]).1 < 0 ∧
    (live_step (fun _ _ _ a0 a1 => (a0, a1)) ⟨10, 10⟩ ⟨⟨[], ⟨10, 10⟩, [], 0⟩, 0⟩ 5 0 0
       (some ⟨true, none, some [⟨0, 1, 100, 100⟩]⟩) true).sim.history =
      [⟨5, 0, 0, [], [⟨0, 1, 100, 100⟩], ⟨0, 0⟩⟩] := by
  decide

/-- Witness for C1: the single-miner evaluation rejection applied at a
concrete over-deploying proposal (initial inventory 10, proposal uses
100 of each token under the deploy-everything used-amounts function). -/
theorem C1_witness :
    eval_step_single (fun _ _ _ a0 a1 => (a0, a1)) ⟨10, 10⟩ ⟨[], ⟨10, 10⟩, [], 0⟩
      5 0 0 (some ⟨true, none, some [⟨0, 1, 100, 100⟩]⟩) =
      .finished ⟨false, none, [], [], none⟩ :=
  C1_inventory_nonneg_amended.1 (fun _ _ _ a0 a1 => (a0, a1)) ⟨10, 10⟩
    ⟨[], ⟨10, 10⟩, [], 0⟩ 5 0 0 none [⟨0, 1, 100, 100⟩] (by decide) (by decide)

/-- Claim C3 (amended).  An over-deploying proposal is rejected without
crashing: no history entry is recorded and the miner's positions and
inventory are unchanged.  But contrary to the original claim the
rejection TERMINATES that miner's run rather than continuing to the next
rebalance check: the single-miner evaluation loop immediately returns a
non-accepted result, and the batched loop marks the miner as refused,
after which every subsequent step leaves its state unchanged (it is
never queried again). -/
theorem C3_rejection_amended :
    (∀ (posUsed : UsedAmountsFn) (initInv : Inventory) (st : MinerSimState)
        (b : ℤ) (pq rp : ℚ) (rr : Option String) (desired : List Position),
      positions_within_tolerance st.positions desired REBALANCE_TOLERANCE = false →
      (initInv.amount0 - (total_used_amounts posUsed rp desired).1 < 0 ∨
       initInv.amount1 - (total_used_amounts posUsed rp desired).2 < 0) →
      eval_step_single posUsed initInv st b pq rp (some ⟨true, rr, some desired⟩) =
        .finished ⟨false, none, st.history, st.positions, none⟩) ∧
    (∀ (posUsed : UsedAmountsFn) (st : BatchMinerState)
        (b : ℤ) (pq rp : ℚ) (rr : Option String) (desired : List Position),
      st.refused = none →
      positions_within_tolerance st.sim.positions desired REBALANCE_TOLERANCE = false →
      (st.sim.inventory.amount0 - (total_used_amounts posUsed rp desired).1 < 0 ∨
       st.sim.inventory.amount1 - (total_used_amounts posUsed rp desired).2 < 0) →
      batch_step posUsed st b pq rp (some ⟨true, rr, some desired⟩) =
        { st with refused := some (some "Insufficient inventory from desired positions") }) ∧
    (∀ (posUsed : UsedAmountsFn) (st : BatchMinerState)
        (b : ℤ) (pq rp : ℚ) (resp : Option RebalanceResponse),
      st.refused.isSome = true →
      batch_step posUsed st b pq rp resp = st) := by
  refine ⟨?_, ?_, ?_⟩
  · intro posUsed initInv st b pq rp rr desired htol hneg
    simp only [eval_step_single, Bool.not_true, ite_false, htol, if_false,
      Bool.false_eq_true]
    rw [if_pos hneg]
    simp
  · intro posUsed st b pq rp rr desired href htol hneg
    simp only [batch_step, href, Option.isSome_none, Bool.false_eq_true, if_false,
      Bool.not_true, ite_false, htol, not_true]
    rw [if_pos hneg]
  · intro posUsed st b pq rp resp href
    simp [batch_step, href]

/-- Claim C3 counterexample: at a concrete over-deploying proposal the
single-miner evaluation step yields a terminal (finished, non-accepted)
outcome rather than continuing, and the batched step permanently marks
the miner refused - the miner's run does not continue to the next
rebalance check. -/
theorem C3_counterexample :
    eval_step_single (fun _ _ _ a0 a1 => (a0, a1)) ⟨3, 3⟩ ⟨[], ⟨3, 3⟩, [], 0⟩
      7 0 0 (some ⟨true, none, some [⟨0, 1, 50, 50⟩]⟩) =
      .finished ⟨false, none, [], [], none⟩ ∧
    (batch_step (fun _ _ _ a0 a1 => (a0, a1))
       ⟨none, ⟨[], ⟨3, 3⟩, [], 0⟩⟩ 7 0 0
       (some ⟨true, none, some [⟨0, 1, 50, 50⟩]⟩)).refused =
      some (some "Insufficient inventory from desired positions") := by
  constructor
  · decide
  · decide

/-- Witness for C3: the amended single-miner rejection applied at a
concrete over-deploying proposal. -/
theorem C3_witness :
    eval_step_single (fun _ _ _ a0 a1 => (a0, a1)) ⟨3, 3⟩ ⟨[], ⟨3, 3⟩, [], 0⟩
      7 0 0 (some ⟨true, none, some [⟨0, 1, 50, 50⟩]⟩) =
      .finished ⟨false, none, [], [], none⟩ :=
  C3_rejection_amended.1 (fun _ _ _ a0 a1 => (a0, a1)) ⟨3, 3⟩
    ⟨[], ⟨3, 3⟩, [], 0⟩ 7 0 0 none [⟨0, 1, 50, 50⟩] (by decide) (by decide)

/-- Claim C10 (amended).  In the batched evaluation loop, a miner whose
every response is accepted with desired positions within tolerance of its
current positions ends the round with its state unchanged (never refused,
empty history); an unrefused miner with an empty history receives a
result with accepted = true, score 0, empty rebalance history and no
performance metrics, and the result is the same for EVERY backtester and
scorer function (neither is invoked).  Contrary to the original claim,
a miner that responds accepted with desired_positions = None ("keep
current") or whose proposal is rejected for insufficient inventory is
marked refused and receives accepted = false (see the counterexample). -/
theorem C10_idle_miner_amended :
    (∀ (posUsed : UsedAmountsFn) (st : BatchMinerState) (steps : List BatchStepInput),
      st.refused = none →
      (∀ i ∈ steps, ∃ rr d, i.response = some ⟨true, rr, some d⟩ ∧
        positions_within_tolerance st.sim.positions d REBALANCE_TOLERANCE = true) →
      run_batch_miner posUsed st steps = st) ∧
    (∀ (μ : Type) (backtest : List RebalanceEntry → μ) (scorefn : μ → ℚ)
        (st : BatchMinerState),
      st.refused = none → st.sim.history = [] →
      build_batch_result backtest scorefn st =
        ⟨true, none, [], st.sim.positions, none, 0⟩) := by
  constructor
  · intro posUsed st steps href hsteps
    induction steps with
    | nil => rfl
    | cons i rest ih =>
      obtain ⟨rr, d, hresp, htol⟩ := hsteps i (List.mem_cons_self i rest)
      have hstep : batch_step posUsed st i.block i.price_at_query i.rebalance_price
          i.response = st := by
        rw [hresp]
        simp only [batch_step, href, Option.isSome_none, Bool.false_eq_true, if_false,
          Bool.not_true, ite_false, not_true, htol, if_true]
      show run_batch_miner posUsed
        (batch_step posUsed st i.block i.price_at_query i.rebalance_price i.response)
        rest = st
      rw [hstep]
      exact ih fun j hj => hsteps j (List.mem_cons_of_mem i hj)
  · intro μ backtest scorefn st href hhist
    unfold build_batch_result
    rw [href]
    rw [hhist]
    rfl

/-- Claim C10 counterexample: a miner that accepts the only query of the
round but returns desired_positions = None (keep current, so it never
commits a rebalance) is marked refused by the batched loop and its result
has accepted = false, not true as claimed. -/
theorem C10_counterexample :
    (build_batch_result (fun h => h.length) (fun _ => (0 : ℚ))
      (run_batch_miner (fun _ _ _ a0 a1 => (a0, a1)) (initial_batch_state [] ⟨0, 0⟩)
        [⟨1, 0, 0, some ⟨true, none, none⟩⟩])).accepted = false := by
  decide

/-- Witness for C10: the amended theorem applied to a miner whose single
response proposes exactly its current positions (within tolerance), with
a concrete backtester and scorer. -/
theorem C10_witness :
    run_batch_miner (fun _ _ _ a0 a1 => (a0, a1))
      (initial_batch_state [⟨0, 1, 5, 5⟩] ⟨9, 9⟩)
      [⟨1, 0, 0, some ⟨true, none, some [⟨0, 1, 5, 5⟩]⟩⟩] =
      initial_batch_state [⟨0, 1, 5, 5⟩] ⟨9, 9⟩ ∧
    build_batch_result (fun h => h.length) (fun _ => (0 : ℚ))
      (initial_batch_state [⟨0, 1, 5, 5⟩] ⟨9, 9⟩) =
      ⟨true, none, [], [⟨0, 1, 5, 5⟩], none, 0⟩ :=
  ⟨C10_idle_miner_amended.1 (fun _ _ _ a0 a1 => (a0, a1))
      (initial_batch_state [⟨0, 1, 5, 5⟩] ⟨9, 9⟩)
      [⟨1, 0, 0, some ⟨true, none, some [⟨0, 1, 5, 5⟩]⟩⟩] rfl
      (fun i hi => by
        cases hi with
        | head => exact ⟨none, [⟨0, 1, 5, 5⟩], rfl, by decide⟩
        | tail _ h => cases h),
   C10_idle_miner_amended.2 ℕ (fun h => h.length) (fun _ => (0 : ℚ))
      (initial_batch_state [⟨0, 1, 5, 5⟩] ⟨9, 9⟩) rfl rfl⟩

/-! ## Scorer (validator/services/scorer.py, lines 10-107)

Scorer.score_pol_strategy is embedded over the reals (Python float exp
and log become Real.exp and Real.log).  The degenerate return
float(-inf) for a non-positive initial value is modelled as none. -/

structure ScoreMetrics where
  initial_value : ℝ
  final_value : ℝ
  initial_inventory : Inventory
  final_inventory : Inventory

/-- Embeds the relative inventory loss of one token (scorer.py lines
61-62 and 72-81): max(0, initial - final) / initial, and 0 when the
initial amount is not positive. -/
noncomputable def loss_ratio (initial_amount final_amount : ℤ) : ℝ :=
  if 0 < initial_amount then
    ((max 0 (initial_amount - final_amount) : ℤ) : ℝ) / (initial_amount : ℝ)
  else 0

/-- Embeds the smooth-max (log-sum-exp) aggregation of the two loss
ratios (scorer.py lines 86-90). -/
noncomputable def smooth_max_ratio (smooth_beta r0 r1 : ℝ) : ℝ :=
  let m := max r0 r1
  m + (1 / smooth_beta) * Real.log
    (Real.exp (smooth_beta * (r0 - m)) + Real.exp (smooth_beta * (r1 - m)))

/-- Embeds the exponential penalty factor (scorer.py lines 95-97). -/
noncomputable def penalty_factor (loss_penalty_multiplier inventory_loss_ratio : ℝ) : ℝ :=
  Real.exp (-loss_penalty_multiplier * inventory_loss_ratio)

/-- Embeds lines 67 and 84-107 of scorer.py as a function of the value
gain and the two loss ratios. -/
noncomputable def score_from_gain_and_ratios (k β value_gain r0 r1 : ℝ) : ℝ :=
  let inventory_loss_ratio := smooth_max_ratio β r0 r1
  let p := penalty_factor k inventory_loss_ratio
  if 0 ≤ value_gain then value_gain * p else value_gain / p

/-- Embeds Scorer.score_pol_strategy (scorer.py lines 12-107); k is
loss_penalty_multiplier (default 10.0) and β is smooth_beta (default
4.0).  none models the float(-inf) return for initial value <= 0. -/
noncomputable def score_pol_strategy (metrics : ScoreMetrics) (k β : ℝ) : Option ℝ :=
  if metrics.initial_value ≤ 0 then none
  else some (score_from_gain_and_ratios k β
    (metrics.final_value - metrics.initial_value)
    (loss_ratio metrics.initial_inventory.amount0 metrics.final_inventory.amount0)
    (loss_ratio metrics.initial_inventory.amount1 metrics.final_inventory.amount1))

theorem smooth_max_ratio_eq (β r0 r1 : ℝ) (hβ : β ≠ 0) :
    smooth_max_ratio β r0 r1 =
      β⁻¹ * Real.log (Real.exp (β * r0) + Real.exp (β * r1)) := by
  rw [show smooth_max_ratio β r0 r1 = max r0 r1 + 1 / β * Real.log
    (Real.exp (β * (r0 - max r0 r1)) + Real.exp (β * (r1 - max r0 r1))) from rfl]
  set m := max r0 r1 with hm
  have h0 : Real.exp (β * (r0 - m)) = Real.exp (β * r0) / Real.exp (β * m) := by
    rw [mul_sub, Real.exp_sub]
  have h1 : Real.exp (β * (r1 - m)) = Real.exp (β * r1) / Real.exp (β * m) := by
    rw [mul_sub, Real.exp_sub]
  rw [h0, h1, div_add_div_same]
  have hsum : (0 : ℝ) < Real.exp (β * r0) + Real.exp (β * r1) :=
    add_pos (Real.exp_pos _) (Real.exp_pos _)
  rw [Real.log_div (ne_of_gt hsum) (ne_of_gt (Real.exp_pos _)), Real.log_exp]
  field_simp
  ring

theorem smooth_max_ratio_mono (β : ℝ) (hβ : 0 < β) {r0 r0' r1 r1' : ℝ}
    (h0 : r0 ≤ r0') (h1 : r1 ≤ r1') :
    smooth_max_ratio β r0 r1 ≤ smooth_max_ratio β r0' r1' := by
  rw [smooth_max_ratio_eq β r0 r1 (ne_of_gt hβ),
      smooth_max_ratio_eq β r0' r1' (ne_of_gt hβ)]
  apply mul_le_mul_of_nonneg_left _ (inv_nonneg.mpr (le_of_lt hβ))
  apply Real.log_le_log (add_pos (Real.exp_pos _) (Real.exp_pos _))
  have e0 : Real.exp (β * r0) ≤ Real.exp (β * r0') :=
    Real.exp_le_exp.mpr (mul_le_mul_of_nonneg_left h0 (le_of_lt hβ))
  have e1 : Real.exp (β * r1) ≤ Real.exp (β * r1') :=
    Real.exp_le_exp.mpr (mul_le_mul_of_nonneg_left h1 (le_of_lt hβ))
  linarith

theorem smooth_max_ratio_nonneg (β : ℝ) (hβ : 0 < β) {r0 r1 : ℝ}
    (h0 : 0 ≤ r0) (_h1 : 0 ≤ r1) : 0 ≤ smooth_max_ratio β r0 r1 := by
  rw [smooth_max_ratio_eq β r0 r1 (ne_of_gt hβ)]
  apply mul_nonneg (inv_nonneg.mpr (le_of_lt hβ))
  apply Real.log_nonneg
  have e0 : (1 : ℝ) ≤ Real.exp (β * r0) :=
    Real.one_le_exp_iff.mpr (mul_nonneg (le_of_lt hβ) h0)
  have e1 : (0 : ℝ) < Real.exp (β * r1) := Real.exp_pos _
  linarith

theorem score_gain_mono (k β : ℝ) (g1 g2 r0 r1 : ℝ) (hg : g1 ≤ g2) :
    score_from_gain_and_ratios k β g1 r0 r1 ≤ score_from_gain_and_ratios k β g2 r0 r1 := by
  unfold score_from_gain_and_ratios
  have hp : (0 : ℝ) < penalty_factor k (smooth_max_ratio β r0 r1) := Real.exp_pos _
  set p := penalty_factor k (smooth_max_ratio β r0 r1) with hpdef
  by_cases h1 : 0 ≤ g1
  · rw [if_pos h1, if_pos (le_trans h1 hg)]
    exact mul_le_mul_of_nonneg_right hg (le_of_lt hp)
  · rw [if_neg h1]
    by_cases h2 : 0 ≤ g2
    · rw [if_pos h2]
      have hle : g1 / p ≤ 0 :=
        div_nonpos_of_nonpos_of_nonneg (le_of_not_le h1) (le_of_lt hp)
      have hge : 0 ≤ g2 * p := mul_nonneg h2 (le_of_lt hp)
      linarith
    · rw [if_neg h2]
      exact div_le_div_of_nonneg_right hg (le_of_lt hp)

theorem score_ratio_antimono (k β g : ℝ) {r0 r0' r1 r1' : ℝ} (hk : 0 ≤ k)
    (hβ : 0 < β) (h0 : r0 ≤ r0') (h1 : r1 ≤ r1') :
    score_from_gain_and_ratios k β g r0' r1' ≤ score_from_gain_and_ratios k β g r0 r1 := by
  unfold score_from_gain_and_ratios
  have hc : smooth_max_ratio β r0 r1 ≤ smooth_max_ratio β r0' r1' :=
    smooth_max_ratio_mono β hβ h0 h1
  have hp : penalty_factor k (smooth_max_ratio β r0' r1') ≤
      penalty_factor k (smooth_max_ratio β r0 r1) := by
    unfold penalty_factor
    apply Real.exp_le_exp.mpr
    nlinarith
  have hp' : (0 : ℝ) < penalty_factor k (smooth_max_ratio β r0' r1') := Real.exp_pos _
  have hp0 : (0 : ℝ) < penalty_factor k (smooth_max_ratio β r0 r1) := Real.exp_pos _
  by_cases hg : 0 ≤ g
  · rw [if_pos hg, if_pos hg]
    exact mul_le_mul_of_nonneg_left hp hg
  · rw [if_neg hg, if_neg hg]
    rw [div_le_div_iff₀ hp' hp0]
    exact mul_le_mul_of_nonpos_left hp (le_of_not_le hg)

theorem score_penalty_worsens (k β g : ℝ) {r0 r1 : ℝ} (hk : 0 ≤ k) (hβ : 0 < β)
    (h0 : 0 ≤ r0) (h1 : 0 ≤ r1) :
    score_from_gain_and_ratios k β g r0 r1 ≤ g := by
  unfold score_from_gain_and_ratios
  have hc : 0 ≤ smooth_max_ratio β r0 r1 := smooth_max_ratio_nonneg β hβ h0 h1
  have hp1 : penalty_factor k (smooth_max_ratio β r0 r1) ≤ 1 := by
    unfold penalty_factor
    apply Real.exp_le_one_iff.mpr
    nlinarith
  have hp0 : (0 : ℝ) < penalty_factor k (smooth_max_ratio β r0 r1) := Real.exp_pos _
  set p := penalty_factor k (smooth_max_ratio β r0 r1)
  by_cases hg : 0 ≤ g
  · rw [if_pos hg]
    nlinarith
  · rw [if_neg hg]
    rw [div_le_iff₀ hp0]
    nlinarith

theorem loss_ratio_nonneg (i f : ℤ) : 0 ≤ loss_ratio i f := by
  unfold loss_ratio
  by_cases h : 0 < i
  · rw [if_pos h]
    apply div_nonneg
    · exact_mod_cast le_max_left 0 (i - f)
    · exact_mod_cast le_of_lt h
  · rw [if_neg h]

/-- Claim C5.  score_pol_strategy factors through the value gain and the
two per-token loss ratios (conjunct 4); the factored score is
monotonically non-decreasing in the value gain with both loss ratios
fixed (conjunct 1), monotonically non-increasing in the loss ratios with
the gain fixed (conjunct 2), and the penalty always worsens the score
(conjunct 3, score is at most the raw gain for the non-negative ratios
the code produces, conjunct 6), because the score is value_gain times
exp(-k combined_loss) for non-negative gain and value_gain divided by it
otherwise (conjunct 5). -/
theorem C5_scoring_monotone :
    (∀ (k β g1 g2 r0 r1 : ℝ), g1 ≤ g2 →
      score_from_gain_and_ratios k β g1 r0 r1 ≤
        score_from_gain_and_ratios k β g2 r0 r1) ∧
    (∀ (k β g : ℝ) (r0 r0' r1 r1' : ℝ), 0 ≤ k → 0 < β → r0 ≤ r0' → r1 ≤ r1' →
      score_from_gain_and_ratios k β g r0' r1' ≤
        score_from_gain_and_ratios k β g r0 r1) ∧
    (∀ (k β g : ℝ) (r0 r1 : ℝ), 0 ≤ k → 0 < β → 0 ≤ r0 → 0 ≤ r1 →
      score_from_gain_and_ratios k β g r0 r1 ≤ g) ∧
    (∀ (m : ScoreMetrics) (k β : ℝ), ¬ m.initial_value ≤ 0 →
      score_pol_strategy m k β = some (score_from_gain_and_ratios k β
        (m.final_value - m.initial_value)
        (loss_ratio m.initial_inventory.amount0 m.final_inventory.amount0)
        (loss_ratio m.initial_inventory.amount1 m.final_inventory.amount1))) ∧
    (∀ (k β g r0 r1 : ℝ), score_from_gain_and_ratios k β g r0 r1 =
      if 0 ≤ g then g * Real.exp (-k * smooth_max_ratio β r0 r1)
      else g / Real.exp (-k * smooth_max_ratio β r0 r1)) ∧
    (∀ (i f : ℤ), 0 ≤ loss_ratio i f) := by
  refine ⟨?_, ?_, ?_, ?_, ?_, ?_⟩
  · intro k β g1 g2 r0 r1 hg
    exact score_gain_mono k β g1 g2 r0 r1 hg
  · intro k β g r0 r0' r1 r1' hk hβ h0 h1
    exact score_ratio_antimono k β g hk hβ h0 h1
  · intro k β g r0 r1 hk hβ h0 h1
    exact score_penalty_worsens k β g hk hβ h0 h1
  · intro m k β h
    unfold score_pol_strategy
    rw [if_neg h]
  · intro k β g r0 r1
    rfl
  · intro i f
    exact loss_ratio_nonneg i f

/-- Witness for C5: the monotonicity, penalty and factoring statements
applied at concrete gains and ratios with the default parameters
k = 10 and beta = 4. -/
theorem C5_witness :
    (score_from_gain_and_ratios 10 4 0 0 0 ≤ score_from_gain_and_ratios 10 4 1 0 0) ∧
    (score_from_gain_and_ratios 10 4 1 (1 / 2) 0 ≤
      score_from_gain_and_ratios 10 4 1 0 0) ∧
    (score_from_gain_and_ratios 10 4 (-1) (1 / 2) (1 / 2) ≤ -1) ∧
    score_pol_strategy ⟨1, 2, ⟨5, 5⟩, ⟨5, 5⟩⟩ 10 4 =
      some (score_from_gain_and_ratios 10 4 (2 - 1) (loss_ratio 5 5) (loss_ratio 5 5)) :=
  ⟨C5_scoring_monotone.1 10 4 0 1 0 0 (by norm_num),
   C5_scoring_monotone.2.1 10 4 1 0 (1 / 2) 0 0 (by norm_num) (by norm_num)
     (by norm_num) (by norm_num),
   C5_scoring_monotone.2.2.1 10 4 (-1) (1 / 2) (1 / 2) (by norm_num) (by norm_num)
     (by norm_num) (by norm_num),
   C5_scoring_monotone.2.2.2.1 ⟨1, 2, ⟨5, 5⟩, ⟨5, 5⟩⟩ 10 4 (by norm_num)⟩

/-! ## Winner selection (validator/orchestrator/winner.py, lines 16-50)

select_winner calls Scorer.rank_miners_by_score_and_history (winner.py
line 40), which is not defined anywhere in the source tree; the ranking
is therefore modelled from the spec (section 4.7: "Rank by this round's
score descending; ties broken by historical combined score descending",
and the testable property "a peer with no history ties behaves as score
0").  Miner float scores are modelled as rationals, faithful for ranking
since only their order is used; job_repository.get_historic_combined_scores
is abstracted as a function of the queried uid list. -/

/-- Modelled from the spec: the persisted historic combined score of a
miner, taken as 0 when the repository has no history for it. -/
def historic_score (historic : List (ℕ × ℚ)) (uid : ℕ) : ℚ :=
  (historic.lookup uid).getD 0

/-- Modelled from the spec: x may be placed before y in the ranking
(round score descending, ties by historic combined score descending). -/
def ranks_before (historic : List (ℕ × ℚ)) (x y : ℕ × ℚ) : Bool :=
  decide (y.2 < x.2) ||
    (decide (y.2 = x.2) &&
      decide (historic_score historic y.1 ≤ historic_score historic x.1))

/-- y ranks no higher than x: the propositional order underlying
ranks_before. -/
def winner_le (historic : List (ℕ × ℚ)) (y x : ℕ × ℚ) : Prop :=
  y.2 < x.2 ∨ (y.2 = x.2 ∧
    historic_score historic y.1 ≤ historic_score historic x.1)

def insert_ranked (historic : List (ℕ × ℚ)) (x : ℕ × ℚ) :
    List (ℕ × ℚ) → List (ℕ × ℚ)
  | [] => [x]
  | y :: ys =>
      if ranks_before historic x y then x :: y :: ys
      else y :: insert_ranked historic x ys

/-- Modelled from the spec: Scorer.rank_miners_by_score_and_history as a
stable insertion sort of the (uid, round score) pairs, descending by
round score with ties broken by descending historic combined score. -/
def rank_miners_by_score_and_history (round_scores : List (ℕ × ℚ))
    (historic : List (ℕ × ℚ)) : List (ℕ × ℚ) :=
  round_scores.foldr (insert_ranked historic) []

/-- Embeds select_winner (winner.py lines 16-50): None when the scores
map is empty, otherwise the first entry of the ranking over the accepted
peers' round scores, with the historic scores fetched for exactly those
peers.  The hotkey passthrough of the returned dict is omitted; the
returned pair is (miner_uid, round score). -/
def select_winner (get_historic : List ℕ → List (ℕ × ℚ))
    (scores : List (ℕ × ℚ)) : Option (ℕ × ℚ) :=
  if scores.isEmpty then none
  else
    let historic := get_historic (scores.map Prod.fst)
    match rank_miners_by_score_and_history scores historic with
    | [] => none
    | w :: _ => some w

theorem ranks_before_iff (h : List (ℕ × ℚ)) (x y : ℕ × ℚ) :
    ranks_before h x y = true ↔ winner_le h y x := by
  unfold ranks_before winner_le
  simp [Bool.or_eq_true, Bool.and_eq_true]

theorem rank_le_total (h : List (ℕ × ℚ)) (x y : ℕ × ℚ)
    (hn : ¬ ranks_before h x y = true) : winner_le h x y := by
  rw [ranks_before_iff] at hn
  unfold winner_le at hn ⊢
  push_neg at hn
  rcases lt_trichotomy x.2 y.2 with hlt | heq | hgt
  · exact Or.inl hlt
  · refine Or.inr ⟨heq, ?_⟩
    have := hn.2 heq.symm
    linarith
  · exact absurd hgt (not_lt.mpr hn.1)

theorem rank_le_trans (h : List (ℕ × ℚ)) {x y z : ℕ × ℚ}
    (hxy : winner_le h x y) (hyz : winner_le h y z) : winner_le h x z := by
  unfold winner_le at *
  rcases hxy with h1 | ⟨h1, h1'⟩ <;> rcases hyz with h2 | ⟨h2, h2'⟩
  · exact Or.inl (lt_trans h1 h2)
  · exact Or.inl (h2 ▸ h1)
  · exact Or.inl (h1 ▸ h2)
  · exact Or.inr ⟨h1.trans h2, le_trans h1' h2'⟩

theorem mem_insert_ranked (h : List (ℕ × ℚ)) (x z : ℕ × ℚ) (l : List (ℕ × ℚ)) :
    z ∈ insert_ranked h x l ↔ z = x ∨ z ∈ l := by
  induction l with
  | nil => simp [insert_ranked]
  | cons y ys ih =>
    unfold insert_ranked
    by_cases hb : ranks_before h x y
    · rw [if_pos hb]
      simp
    · rw [if_neg hb]
      simp only [List.mem_cons, ih]
      tauto

/-- The head of the insertion-sorted ranking dominates every element. -/
def head_dominates (h : List (ℕ × ℚ)) : List (ℕ × ℚ) → Prop
  | [] => True
  | hd :: tl => ∀ z ∈ hd :: tl, winner_le h z hd

theorem insert_ranked_head_dominates (h : List (ℕ × ℚ)) (x : ℕ × ℚ)
    (l : List (ℕ × ℚ)) (hl : head_dominates h l) :
    head_dominates h (insert_ranked h x l) := by
  cases l with
  | nil =>
    intro z hz
    rcases (mem_insert_ranked h x z []).mp hz with hzx | hzl
    · subst hzx
      exact Or.inr ⟨rfl, le_refl _⟩
    · cases hzl
  | cons y ys =>
    unfold insert_ranked
    by_cases hb : ranks_before h x y
    · rw [if_pos hb]
      intro z hz
      rcases List.mem_cons.mp hz with hzx | hzm
      · subst hzx
        exact Or.inr ⟨rfl, le_refl _⟩
      · exact rank_le_trans h (hl z hzm) ((ranks_before_iff h x y).mp hb)
    · rw [if_neg hb]
      intro z hz
      rcases List.mem_cons.mp hz with hzy | hzm
      · subst hzy
        exact Or.inr ⟨rfl, le_refl _⟩
      · rcases (mem_insert_ranked h x z ys).mp hzm with hzx | hzys
        · subst hzx
          exact rank_le_total h z y hb
        · exact hl z (List.mem_cons_of_mem y hzys)

theorem rank_miners_head_dominates (rs h : List (ℕ × ℚ)) :
    head_dominates h (rank_miners_by_score_and_history rs h) := by
  induction rs with
  | nil => trivial
  | cons x xs ih => exact insert_ranked_head_dominates h x _ ih

theorem mem_rank_miners (rs h : List (ℕ × ℚ)) (z : ℕ × ℚ) :
    z ∈ rank_miners_by_score_and_history rs h ↔ z ∈ rs := by
  induction rs with
  | nil => simp [rank_miners_by_score_and_history]
  | cons x xs ih =>
    unfold rank_miners_by_score_and_history at ih ⊢
    rw [List.foldr_cons, mem_insert_ranked, ih, List.mem_cons]

/-- Claim C7.  select_winner returns none when the accepted-peers score
map is empty; a peer with no persisted history behaves as combined score
0; and for a non-empty score map it returns a peer of the map that every
other peer ranks no higher than: strictly smaller round score, or an
equal round score with a historic combined score at most the winner's
(round score descending, ties broken by descending historic score).
The ranking function itself is modelled from the spec since
Scorer.rank_miners_by_score_and_history is absent from the sources. -/
theorem C7_select_winner :
    (∀ (get_historic : List ℕ → List (ℕ × ℚ)),
      select_winner get_historic [] = none) ∧
    (∀ (h : List (ℕ × ℚ)) (uid : ℕ), h.lookup uid = none →
      historic_score h uid = 0) ∧
    (∀ (get_historic : List ℕ → List (ℕ × ℚ)) (scores : List (ℕ × ℚ)),
      scores ≠ [] →
      ∃ w, select_winner get_historic scores = some w ∧ w ∈ scores ∧
        ∀ v ∈ scores, v.2 < w.2 ∨ (v.2 = w.2 ∧
          historic_score (get_historic (scores.map Prod.fst)) v.1 ≤
            historic_score (get_historic (scores.map Prod.fst)) w.1)) := by
  refine ⟨?_, ?_, ?_⟩
  · intro gh
    rfl
  · intro h uid hl
    unfold historic_score
    rw [hl]
    rfl
  · intro gh scores hne
    set h := gh (scores.map Prod.fst) with hh
    have hrne : rank_miners_by_score_and_history scores h ≠ [] := by
      cases scores with
      | nil => exact absurd rfl hne
      | cons s ss =>
        intro hempty
        have hs : s ∈ rank_miners_by_score_and_history (s :: ss) h :=
          (mem_rank_miners (s :: ss) h s).mpr (List.mem_cons_self s ss)
        rw [hempty] at hs
        cases hs
    obtain ⟨w, tl, hwtl⟩ := List.exists_cons_of_ne_nil hrne
    have hsel : select_winner gh scores = some w := by
      unfold select_winner
      rw [if_neg (by simpa using hne)]
      show (match rank_miners_by_score_and_history scores h with
        | [] => none
        | w :: _ => some w) = some w
      rw [hwtl]
    refine ⟨w, hsel, ?_, ?_⟩
    · exact (mem_rank_miners scores h w).mp (hwtl ▸ List.mem_cons_self w tl)
    · intro v hv
      have hdom := rank_miners_head_dominates scores h
      rw [hwtl] at hdom
      have hvm : v ∈ w :: tl := hwtl ▸ (mem_rank_miners scores h v).mpr hv
      exact hdom v hvm

/-- Witness for C7: three peers where 2 and 3 tie on round score 7 and
the historic scores 1 versus 4 decide the ranking. -/
theorem C7_witness :
    ∃ w, select_winner (fun _ => [(2, 1), (3, 4)]) [(1, 5), (2, 7), (3, 7)] = some w ∧
      w ∈ [((1 : ℕ), (5 : ℚ)), (2, 7), (3, 7)] ∧
      ∀ v ∈ [((1 : ℕ), (5 : ℚ)), (2, 7), (3, 7)], v.2 < w.2 ∨ (v.2 = w.2 ∧
        historic_score [(2, 1), (3, 4)] v.1 ≤ historic_score [(2, 1), (3, 4)] w.1) :=
  C7_select_winner.2.2 (fun _ => [(2, 1), (3, 4)]) [(1, 5), (2, 7), (3, 7)]
    (by simp)

/-! ## SS58 decoding (validator/utils/crypto.py)

b58 decoding and the SS58 checksum check are embedded over byte lists
(naturals).  The blake2b hash used for the checksum is an external
library call (hashlib); the SS58 theorems are parametric in the hash
function, and a concrete blake2b-512 implementation is provided below
and validated on the test vectors of tests/test_crypto.py so that the
counterexample and the witnesses are fully closed terms. -/

inductive SsError where
  | invalidChar
  | invalidLength
  | invalidAccountLength
  | invalidChecksum
  deriving DecidableEq, Repr

def B58_ALPHABET : List Char :=
  "123456789ABCDEFGHJKLMNPQRSTUVWXYZabcdefghijkmnopqrstuvwxyz".toList

/-- Python bytes.index: position of the character in the alphabet,
ValueError when absent. -/
def b58_index (c : Char) : Except SsError ℕ :=
  match B58_ALPHABET.findIdx? (· == c) with
  | none => .error .invalidChar
  | some i => .ok i

/-- Minimal big-endian byte string of a natural number, as produced by
num.to_bytes((num.bit_length() + 7) // 8, big): empty for 0.  The fuel
argument (any bound on the number of base-256 digits, here the number
itself) makes the recursion structural so that it reduces in the
kernel. -/
def natToBytesBEAux : ℕ → ℕ → List ℕ
  | _, 0 => []
  | 0, _ + 1 => []
  | fuel + 1, n + 1 => natToBytesBEAux fuel ((n + 1) / 256) ++ [(n + 1) % 256]

def natToBytesBE (n : ℕ) : List ℕ := natToBytesBEAux n n

/-- Embeds _b58decode (crypto.py lines 11-28): base-58 positional value,
minimal big-endian bytes, then one leading zero byte per leading 1
character. -/
def b58_decode (s : List Char) : Except SsError (List ℕ) := do
  let num ← s.foldlM (fun num c => do
    let i ← b58_index c
    pure (num * 58 + i)) 0
  let out := natToBytesBE num
  let pad := (s.takeWhile (· == '1')).length
  return List.replicate pad 0 ++ out

def SS58_PRE : List ℕ := [83, 83, 53, 56, 80, 82, 69]

/-- The SS58 prefix length as computed at crypto.py lines 52-55: 2 when
bit 6 of the first byte is set, else 1. -/
def ss58_prefix_len (data : List ℕ) : ℕ :=
  if (data.headD 0) &&& 64 ≠ 0 then 2 else 1

/-- Embeds the byte-level part of ss58_to_bytes32 (crypto.py lines
46-69), parametric in the 64-byte hash function H standing for
hashlib.blake2b(., digest_size=64).digest(). -/
def ss58_decode_data (H : List ℕ → List ℕ) (data : List ℕ) :
    Except SsError (List ℕ) :=
  if data.length < 35 then .error .invalidLength
  else
    let prefix_len := ss58_prefix_len data
    let pfx := data.take prefix_len
    let account_id := (data.drop prefix_len).take 32
    let checksum := (data.drop (prefix_len + 32)).take 2
    if account_id.length ≠ 32 then .error .invalidAccountLength
    else
      let hash := H (SS58_PRE ++ pfx ++ account_id)
      if checksum ≠ hash.take 2 then .error .invalidChecksum
      else .ok account_id

/-- Embeds ss58_to_bytes32 (crypto.py lines 31-69). -/
def ss58_to_bytes32 (H : List ℕ → List ℕ) (s : List Char) :
    Except SsError (List ℕ) :=
  (b58_decode s).bind (ss58_decode_data H)

/-! A direct blake2b-512 implementation (RFC 7693, digest 64 bytes, no
key), used to instantiate H on the concrete test vectors. -/

def BLAKE2B_IV : List ℕ :=
  [0x6a09e667f3bcc908, 0xbb67ae8584caa73b, 0x3c6ef372fe94f82b,
   0xa54ff53a5f1d36f1, 0x510e527fade682d1, 0x9b05688c2b3e6c1f,
   0x1f83d9abfb41bd6b, 0x5be0cd19137e2179]

def BLAKE2B_SIGMA : List (List ℕ) :=
  [[0, 1, 2, 3, 4, 5, 6, 7, 8, 9, 10, 11, 12, 13, 14, 15],
   [14, 10, 4, 8, 9, 15, 13, 6, 1, 12, 0, 2, 11, 7, 5, 3],
   [11, 8, 12, 0, 5, 2, 15, 13, 10, 14, 3, 6, 7, 1, 9, 4],
   [7, 9, 3, 1, 13, 12, 11, 14, 2, 6, 5, 10, 4, 0, 15, 8],
   [9, 0, 5, 7, 2, 4, 10, 15, 14, 1, 11, 12, 6, 8, 3, 13],
   [2, 12, 6, 10, 0, 11, 8, 3, 4, 13, 7, 5, 15, 14, 1, 9],
   [12, 5, 1, 15, 14, 13, 4, 10, 0, 7, 6, 3, 9, 2, 8, 11],
   [13, 11, 7, 14, 12, 1, 3, 9, 5, 0, 15, 4, 8, 6, 2, 10],
   [6, 15, 14, 9, 11, 3, 0, 8, 12, 2, 13, 7, 1, 4, 10, 5],
   [10, 2, 8, 4, 7, 6, 1, 5, 15, 11, 9, 14, 3, 12, 13, 0]]

def rotr64 (x n : ℕ) : ℕ := ((x >>> n) ||| (x <<< (64 - n))) % 2 ^ 64

def g_mix (v : List ℕ) (a b c d x y : ℕ) : List ℕ :=
  let va := v.getD a 0
  let vb := v.getD b 0
  let vc := v.getD c 0
  let vd := v.getD d 0
  let va := (va + vb + x) % 2 ^ 64
  let vd := rotr64 (vd ^^^ va) 32
  let vc := (vc + vd) % 2 ^ 64
  let vb := rotr64 (vb ^^^ vc) 24
  let va := (va + vb + y) % 2 ^ 64
  let vd := rotr64 (vd ^^^ va) 16
  let vc := (vc + vd) % 2 ^ 64
  let vb := rotr64 (vb ^^^ vc) 63
  (((v.set a va).set b vb).set c vc).set d vd

def blake2b_round (m v : List ℕ) (i : ℕ) : List ℕ :=
  let s := BLAKE2B_SIGMA.getD (i % 10) []
  let mi (j : ℕ) : ℕ := m.getD (s.getD j 0) 0
  let v := g_mix v 0 4 8 12 (mi 0) (mi 1)
  let v := g_mix v 1 5 9 13 (mi 2) (mi 3)
  let v := g_mix v 2 6 10 14 (mi 4) (mi 5)
  let v := g_mix v 3 7 11 15 (mi 6) (mi 7)
  let v := g_mix v 0 5 10 15 (mi 8) (mi 9)
  let v := g_mix v 1 6 11 12 (mi 10) (mi 11)
  let v := g_mix v 2 7 8 13 (mi 12) (mi 13)
  g_mix v 3 4 9 14 (mi 14) (mi 15)

def le_word (bs : List ℕ) : ℕ := bs.foldr (fun b acc => acc * 256 + b) 0

def block_words (block : List ℕ) : List ℕ :=
  (List.range 16).map
    (fun i => le_word (((block ++ List.replicate 128 0).drop (8 * i)).take 8))

def word_bytes_le (w : ℕ) : List ℕ :=
  (List.range 8).map (fun j => (w >>> (8 * j)) % 256)

def blake2b_compress (h m : List ℕ) (t : ℕ) (is_last : Bool) : List ℕ :=
  let v := h ++ BLAKE2B_IV
  let v := v.set 12 ((v.getD 12 0) ^^^ (t % 2 ^ 64))
  let v := v.set 13 ((v.getD 13 0) ^^^ (t / 2 ^ 64))
  let v := if is_last then v.set 14 ((v.getD 14 0) ^^^ (2 ^ 64 - 1)) else v
  let v := (List.range 12).foldl (fun vv i => blake2b_round m vv i) v
  (List.range 8).map (fun i => (h.getD i 0) ^^^ (v.getD i 0) ^^^ (v.getD (i + 8) 0))

def chunks128Aux : ℕ → List ℕ → List (List ℕ)
  | 0, l => [l]
  | fuel + 1, l =>
      if l.length ≤ 128 then [l]
      else l.take 128 :: chunks128Aux fuel (l.drop 128)

def chunks128 (l : List ℕ) : List (List ℕ) := chunks128Aux l.length l

def blake2b_loop (h : List ℕ) (done : ℕ) : List (List ℕ) → List ℕ
  | [] => h
  | [c] => blake2b_compress h (block_words c) (done + c.length) true
  | c :: c2 :: rest =>
      blake2b_loop (blake2b_compress h (block_words c) (done + 128) false)
        (done + 128) (c2 :: rest)

/-- blake2b with a 64-byte digest and no key, as hashlib.blake2b(data,
digest_size=64).digest(), returning the 64 digest bytes. -/
def blake2b (msg : List ℕ) : List ℕ :=
  let h0 := BLAKE2B_IV.set 0 ((BLAKE2B_IV.getD 0 0) ^^^ 0x01010040)
  (blake2b_loop h0 0 (chunks128 msg)).map word_bytes_le |>.flatten


theorem ss58_prefix_len_le (data : List ℕ) :
    1 ≤ ss58_prefix_len data ∧ ss58_prefix_len data ≤ 2 := by
  unfold ss58_prefix_len
  by_cases h : (data.headD 0) &&& 64 ≠ 0
  · rw [if_pos h]
    omega
  · rw [if_neg h]
    omega

theorem ss58_account_slice_length {data : List ℕ} (h35 : 35 ≤ data.length) :
    ((data.drop (ss58_prefix_len data)).take 32).length = 32 := by
  have hp := ss58_prefix_len_le data
  rw [List.length_take, List.length_drop]
  omega

/-- Claim C8 (amended).  SS58 decoding fails closed on inputs that are
too short (decoded length below 35) and on a checksum mismatch at the
two bytes following the 32-byte payload; on every valid input it returns
the 32-byte account id without raising; and corrupting either of those
two checksum bytes of a valid exact-length address makes decoding fail
with a checksum error - all parametric in the hash function standing for
blake2b.  Contrary to the original claim, an input whose decoded byte
string is LONGER than prefix + 34 bytes is not rejected: the trailing
extra bytes are ignored and decoding succeeds whenever the two bytes at
the checked positions match (see the counterexample, where the trailing
two bytes of the input do not form a valid checksum yet decoding
succeeds). -/
theorem C8_ss58_decode_amended :
    (∀ (H : List ℕ → List ℕ) (data : List ℕ), data.length < 35 →
      ss58_decode_data H data = .error .invalidLength) ∧
    (∀ (H : List ℕ → List ℕ) (data : List ℕ), 35 ≤ data.length →
      (data.drop (ss58_prefix_len data + 32)).take 2 ≠
        (H (SS58_PRE ++ data.take (ss58_prefix_len data) ++
          (data.drop (ss58_prefix_len data)).take 32)).take 2 →
      ss58_decode_data H data = .error .invalidChecksum) ∧
    (∀ (H : List ℕ → List ℕ) (data : List ℕ), 35 ≤ data.length →
      (data.drop (ss58_prefix_len data + 32)).take 2 =
        (H (SS58_PRE ++ data.take (ss58_prefix_len data) ++
          (data.drop (ss58_prefix_len data)).take 32)).take 2 →
      ss58_decode_data H data = .ok ((data.drop (ss58_prefix_len data)).take 32) ∧
      ((data.drop (ss58_prefix_len data)).take 32).length = 32) ∧
    (∀ (H : List ℕ → List ℕ) (pfx account : List ℕ) (c0 c1 c0a c1a : ℕ),
      account.length = 32 →
      ss58_prefix_len (pfx ++ (account ++ [c0, c1])) = pfx.length →
      1 ≤ pfx.length →
      [c0, c1] = (H (SS58_PRE ++ pfx ++ account)).take 2 →
      ss58_decode_data H (pfx ++ (account ++ [c0, c1])) = .ok account ∧
      (c0a ≠ c0 →
        ss58_decode_data H (pfx ++ (account ++ [c0a, c1])) =
          .error .invalidChecksum) ∧
      (c1a ≠ c1 →
        ss58_decode_data H (pfx ++ (account ++ [c0, c1a])) =
          .error .invalidChecksum)) := by
  have hmain : ∀ (H : List ℕ → List ℕ) (pfx account : List ℕ) (d0 d1 c0 c1 : ℕ),
      account.length = 32 →
      ss58_prefix_len (pfx ++ (account ++ [d0, d1])) = pfx.length →
      1 ≤ pfx.length →
      [c0, c1] = (H (SS58_PRE ++ pfx ++ account)).take 2 →
      ss58_decode_data H (pfx ++ (account ++ [d0, d1])) =
        if [d0, d1] ≠ [c0, c1] then .error .invalidChecksum else .ok account := by
    intro H pfx account d0 d1 c0 c1 hacc hbit hp1 hcs
    have hlen : (pfx ++ (account ++ [d0, d1])).length = pfx.length + 34 := by
      simp [hacc]
    unfold ss58_decode_data
    rw [if_neg (by omega)]
    rw [hbit]
    have hdropp : (pfx ++ (account ++ [d0, d1])).drop pfx.length =
        account ++ [d0, d1] := List.drop_left pfx (account ++ [d0, d1])
    have htakep : (pfx ++ (account ++ [d0, d1])).take pfx.length = pfx :=
      List.take_left pfx (account ++ [d0, d1])
    have haccount : ((pfx ++ (account ++ [d0, d1])).drop pfx.length).take 32 =
        account := by
      rw [hdropp]
      exact List.take_left' hacc
    have hchecksum : ((pfx ++ (account ++ [d0, d1])).drop (pfx.length + 32)).take 2 =
        [d0, d1] := by
      rw [← List.drop_drop 32 pfx.length, hdropp, List.drop_left' hacc]
      rfl
    simp only [htakep, haccount, hchecksum]
    rw [if_neg (by rw [hacc]; omega)]
    by_cases hne : [d0, d1] ≠ [c0, c1]
    · rw [if_pos hne, if_pos (by rw [← hcs]; exact hne)]
    · push_neg at hne
      rw [if_neg (by rw [hne, ← hcs]; simp), if_neg (by push_neg; exact hne)]
  refine ⟨?_, ?_, ?_, ?_⟩
  · intro H data h
    unfold ss58_decode_data
    rw [if_pos h]
  · intro H data h35 hne
    unfold ss58_decode_data
    rw [if_neg (by omega)]
    rw [if_neg (by rw [ss58_account_slice_length h35]; omega)]
    rw [if_pos hne]
  · intro H data h35 heq
    refine ⟨?_, ss58_account_slice_length h35⟩
    unfold ss58_decode_data
    rw [if_neg (by omega)]
    rw [if_neg (by rw [ss58_account_slice_length h35]; omega)]
    rw [if_neg (by push_neg; exact heq)]
  · intro H pfx account c0 c1 c0a c1a hacc hbit hp1 hcs
    refine ⟨?_, ?_, ?_⟩
    · rw [hmain H pfx account c0 c1 c0 c1 hacc hbit hp1 hcs]
      rw [if_neg (by push_neg; rfl)]
    · intro hne
      have hbit2 : ss58_prefix_len (pfx ++ (account ++ [c0a, c1])) = pfx.length := by
        have hhead : (pfx ++ (account ++ [c0a, c1])).headD 0 =
            (pfx ++ (account ++ [c0, c1])).headD 0 := by
          cases pfx with
          | nil => simp at hp1
          | cons a t => rfl
        unfold ss58_prefix_len at hbit ⊢
        rw [hhead]
        exact hbit
      rw [hmain H pfx account c0a c1 c0 c1 hacc hbit2 hp1 hcs]
      rw [if_pos (by simp [hne])]
    · intro hne
      have hbit2 : ss58_prefix_len (pfx ++ (account ++ [c0, c1a])) = pfx.length := by
        have hhead : (pfx ++ (account ++ [c0, c1a])).headD 0 =
            (pfx ++ (account ++ [c0, c1])).headD 0 := by
          cases pfx with
          | nil => simp at hp1
          | cons a t => rfl
        unfold ss58_prefix_len at hbit ⊢
        rw [hhead]
        exact hbit
      rw [hmain H pfx account c0 c1a c0 c1 hacc hbit2 hp1 hcs]
      rw [if_pos (by simp [hne])]

/-- The well-known AccountId32 of the Alice development account
(tests/test_crypto.py lines 28-38). -/
def ALICE_ACCOUNT : List ℕ :=
  [212, 53, 147, 199, 21, 253, 211, 28, 97, 20, 26, 189, 4, 169, 159, 214,
   130, 44, 133, 88, 133, 76, 205, 227, 154, 86, 132, 231, 165, 109, 162, 125]

/-- The decoded bytes of the Alice SS58 address: prefix 42, the 32-byte
account id, and the 2-byte checksum. -/
def ALICE_DATA : List ℕ := 42 :: (ALICE_ACCOUNT ++ [29, 33])

/-- A base-58 string whose decoded bytes are ALICE_DATA plus one extra
trailing byte: 36 bytes, one more than an SS58 address with a 1-byte
prefix should have. -/
def OVERLONG_SS58 : List Char :=
  "Ks1TRTfTB2v19pD9G5yJ7QCuf8PT8EDE6ZPrHGo9DGneURtsx".toList

def OVERLONG_DATA : List ℕ := ALICE_DATA ++ [7]

/-- Claim C8 counterexample: a 49-character base-58 string decoding to 36
bytes (the valid Alice address bytes plus one trailing garbage byte) has
the wrong decoded length for its 1-byte prefix, and its trailing 2-byte
checksum does not match the blake2b prescription, yet ss58_to_bytes32
returns the account id instead of raising. -/
theorem C8_counterexample :
    ss58_to_bytes32 blake2b OVERLONG_SS58 = .ok ALICE_ACCOUNT ∧
    b58_decode OVERLONG_SS58 = .ok OVERLONG_DATA ∧
    OVERLONG_DATA.length ≠ ss58_prefix_len OVERLONG_DATA + 34 ∧
    OVERLONG_DATA.drop (OVERLONG_DATA.length - 2) ≠
      (blake2b (SS58_PRE ++ OVERLONG_DATA.take (ss58_prefix_len OVERLONG_DATA) ++
        ((OVERLONG_DATA.drop (ss58_prefix_len OVERLONG_DATA)).take 32))).take 2 :=
  ⟨rfl, rfl, by decide, by decide⟩

/-- Witness for C8: the amended theorem applied to the concrete Alice
address bytes with the real blake2b: the valid bytes decode to the
account id, and corrupting either checksum byte (29 to 30, or 33 to 34)
yields a checksum error. -/
theorem C8_witness :
    ss58_decode_data blake2b ([42] ++ (ALICE_ACCOUNT ++ [29, 33])) = .ok ALICE_ACCOUNT ∧
    ss58_decode_data blake2b ([42] ++ (ALICE_ACCOUNT ++ [30, 33])) =
      .error .invalidChecksum ∧
    ss58_decode_data blake2b ([42] ++ (ALICE_ACCOUNT ++ [29, 34])) =
      .error .invalidChecksum :=
  have h := C8_ss58_decode_amended.2.2.2 blake2b [42] ALICE_ACCOUNT 29 33 30 34
    (by decide) (by decide) (by decide) (by decide)
  ⟨h.1, h.2.1 (by decide), h.2.2 (by decide)⟩

/-! ## Backtester (validator/backtester.py, lines 254-535)

evaluate_positions_performance is embedded in two parts: the per-event
fee-accrual loop (lines 449-492) and the final-metrics computation
(lines 494-534).  The per-position float math based on tick_to_price and
math.sqrt (calculate_position_liquidity_and_amounts and the in-range
test, lines 457-473) involves transcendental functions with no exact
embedding and is abstracted into function parameters (inRangeLiq,
amountsOf); every theorem is quantified over those parameters.  The
share computation, fee accrual, history lookup and impermanent-loss
formula are embedded exactly over the rationals.

Note that the loops in round_loops.py append history entries under the
key "inventory" while evaluate_positions_performance reads the key
"current_inventory" (line 503); the backtester-side entry type below
carries the field the backtester reads. -/

inductive BtError where
  | liquidityMissing (id : ℕ)
  | invalidHistory
  deriving DecidableEq, Repr

/-- A swap event as consumed by evaluate_positions_performance; the
liquidity field is optional with Python falsiness (None or 0) making the
share computation fail. -/
structure SwapEvent where
  id : ℕ
  sqrt_price_x96 : ℤ
  evt_block_number : ℤ
  amount0 : ℚ
  amount1 : ℚ
  liquidity : Option ℚ
  deriving DecidableEq, Repr

/-- A rebalance history entry as read by the backtester: block,
new_positions (line 435, 498) and current_inventory (line 503). -/
structure BtRebalanceEntry where
  block : ℤ
  new_positions : List Position
  current_inventory : Inventory
  deriving DecidableEq, Repr

/-- Embeds rebalance_history.sort(key=block, reverse=True) at line 429:
stable sort, descending by block. -/
def sort_history_desc (hist : List BtRebalanceEntry) : List BtRebalanceEntry :=
  hist.mergeSort (fun a b => decide (b.block ≤ a.block))

/-- Embeds get_deployed_positions (backtester.py lines 431-437): linear
scan of the descending-sorted history for the first entry with
block < current_block; no covering entry is a fatal input error. -/
def get_deployed_positions (hist : List BtRebalanceEntry) (current_block : ℤ) :
    Except BtError (List Position) :=
  match hist with
  | [] => .error .invalidHistory
  | e :: rest =>
      if current_block > e.block then .ok e.new_positions
      else get_deployed_positions rest current_block

/-- Embeds Backtester._calculate_liquidity_share (backtester.py lines
355-392): a missing (None) or zero pool-liquidity field raises; else the
share is min(1, simulated / (pool + simulated)), and 0 when the summed
pool liquidity is non-positive. -/
def calculate_liquidity_share (simulated_in_range_liquidity : ℚ)
    (event : SwapEvent) : Except BtError ℚ :=
  match event.liquidity with
  | none => .error (.liquidityMissing event.id)
  | some l =>
      if l = 0 then .error (.liquidityMissing event.id)
      else
        let pool_liquidity := l + simulated_in_range_liquidity
        if pool_liquidity ≤ 0 then .ok 0
        else .ok (min 1 (simulated_in_range_liquidity / pool_liquidity))

/-- Embeds the per-event fee-accrual loop of
evaluate_positions_performance (backtester.py lines 449-492) over the
accumulated (total_fees0, total_fees1).  inRangeLiq abstracts the
in-range liquidity summation of lines 457-473; fees accrue on the input
token only (the one with positive signed amount). -/
def fee_loop (inRangeLiq : List Position → SwapEvent → ℚ) (fee_rate : ℚ)
    (hist : List BtRebalanceEntry) :
    ℚ × ℚ → List SwapEvent → Except BtError (ℚ × ℚ)
  | st, [] => .ok st
  | st, ev :: rest =>
      match get_deployed_positions hist ev.evt_block_number with
      | .error e => .error e
      | .ok positions =>
          let liq := inRangeLiq positions ev
          match calculate_liquidity_share liq ev with
          | .error e => .error e
          | .ok share =>
              let st' :=
                if ev.amount0 > 0 then (st.1 + ev.amount0 * fee_rate * share, st.2)
                else if ev.amount1 > 0 then
                  (st.1, st.2 + ev.amount1 * fee_rate * share)
                else st
              fee_loop inRangeLiq fee_rate hist st' rest

structure BtMetrics where
  fees_collected : ℚ
  impermanent_loss : ℚ
  fees0 : ℚ
  fees1 : ℚ
  in_range_ratio : ℚ
  amount0_deployed : ℤ
  amount1_deployed : ℤ
  amount0_holdings : ℤ
  amount1_holdings : ℤ
  deriving DecidableEq, Repr

/-- Embeds the final-metrics computation of evaluate_positions_performance
(backtester.py lines 494-534) given the fee totals from the loop.
amountsOf abstracts calculate_position_liquidity_and_amounts composed
with int() truncation (lines 498-501).  sorted_history is the
descending-sorted rebalance history; an empty history would make
rebalance_history[0] raise, modelled as none.  The impermanent loss
compares hodl = initial0 * price + initial1 against
lp = holdings1 * price + holdings0, exactly as in the source
(lines 508-519). -/
def final_metrics (amountsOf : Position → ℚ → ℤ × ℤ) (final_price : ℚ)
    (initial_inventory : Inventory) (sorted_history : List BtRebalanceEntry)
    (total_fees0 total_fees1 in_range_ratio : ℚ) : Option BtMetrics :=
  match sorted_history with
  | [] => none
  | first :: _ =>
      let dep := first.new_positions.foldl
        (fun t p =>
          let r := amountsOf p final_price
          (t.1 + r.1, t.2 + r.2)) ((0 : ℤ), (0 : ℤ))
      let final_inventory := first.current_inventory
      let hodl_value_deployed : ℚ :=
        (initial_inventory.amount0 : ℚ) * final_price +
          (initial_inventory.amount1 : ℚ)
      let amount0_holdings := dep.1 + final_inventory.amount0
      let amount1_holdings := dep.2 + final_inventory.amount1
      let lp_value_deployed : ℚ :=
        (amount1_holdings : ℚ) * final_price + (amount0_holdings : ℚ)
      let impermanent_loss : ℚ :=
        if hodl_value_deployed > 0 then
          max 0 ((hodl_value_deployed - lp_value_deployed) / hodl_value_deployed)
        else 0
      let fees_collected := total_fees0 * final_price + total_fees1
      some ⟨fees_collected, impermanent_loss, total_fees0, total_fees1,
        in_range_ratio, dep.1, dep.2, amount0_holdings, amount1_holdings⟩

/-- Modelled from the spec (section 4.2, testable property 4): the
realized deployed-plus-idle value "also valued at the closing price",
i.e. with the SAME token1-denominated valuation as the hold baseline:
token0 holdings times the closing price plus token1 holdings. -/
def spec_realized_value (final_price : ℚ) (amount0_holdings amount1_holdings : ℤ) : ℚ :=
  (amount0_holdings : ℚ) * final_price + (amount1_holdings : ℚ)

/-- Modelled from the spec: impermanent loss on the deployed portion,
max(0, (hodl - realized) / hodl) with hodl the initial inventory valued
at the closing price, and 0 when hodl is non-positive. -/
def spec_impermanent_loss (final_price : ℚ) (initial_inventory : Inventory)
    (amount0_holdings amount1_holdings : ℤ) : ℚ :=
  let hodl : ℚ :=
    (initial_inventory.amount0 : ℚ) * final_price + (initial_inventory.amount1 : ℚ)
  if hodl > 0 then
    max 0 ((hodl - spec_realized_value final_price amount0_holdings amount1_holdings)
      / hodl)
  else 0

/-- Claim C2 (code bug).  The specified impermanent loss values the
realized holdings like the hold baseline (token0 times closing price
plus token1), but the code computes lp_value_deployed =
amount1_holdings * final_price + amount0_holdings (backtester.py line
511), swapping the token roles relative to hodl_value_deployed at line
508 and to calculate_hodl_baseline.  At closing price 2, with initial
inventory (100, 0), no deployed positions and idle inventory (100, 0),
holding and realized portfolios are identical, so the specified
impermanent loss is 0, yet the code returns 1/2. -/
theorem C2_impermanent_loss_code_bug :
    ((final_metrics (fun _ _ => (0, 0)) 2 ⟨100, 0⟩ [⟨0, [], ⟨100, 0⟩⟩] 0 0 0).map
        BtMetrics.impermanent_loss = some (1 / 2)) ∧
    ((final_metrics (fun _ _ => (0, 0)) 2 ⟨100, 0⟩ [⟨0, [], ⟨100, 0⟩⟩] 0 0 0).map
        (fun m => (m.amount0_holdings, m.amount1_holdings)) = some (100, 0)) ∧
    spec_impermanent_loss 2 ⟨100, 0⟩ 100 0 = 0 := by
  refine ⟨?_, ?_, ?_⟩
  · norm_num [final_metrics]
  · norm_num [final_metrics]
  · norm_num [spec_impermanent_loss, spec_realized_value]

/-- Helper: an event with a present, non-zero liquidity field always
yields a share without error. -/
theorem share_ok_of_liquidity {ev : SwapEvent} {l : ℚ} (hl : ev.liquidity = some l)
    (hnz : l ≠ 0) (liq : ℚ) : ∃ s, calculate_liquidity_share liq ev = .ok s := by
  simp only [calculate_liquidity_share, hl]
  rw [if_neg hnz]
  by_cases hp : l + liq ≤ 0
  · exact ⟨0, by rw [if_pos hp]⟩
  · exact ⟨min 1 (liq / (l + liq)), by rw [if_neg hp]⟩

/-- Claim C9.  During the fee-accrual loop of
evaluate_positions_performance, the first swap event whose pool-liquidity
field is missing (None, or zero, which Python truthiness also treats as
absent) makes the evaluation fail hard with the liquidity error for that
event, for every abstraction of the in-range liquidity computation;
and the fee accrual over the events before the failing one proceeds
normally (the loop restricted to the prefix succeeds). -/
theorem C9_missing_liquidity_fails
    (inRangeLiq : List Position → SwapEvent → ℚ) (fee_rate : ℚ)
    (hist : List BtRebalanceEntry) (s0 : ℚ × ℚ)
    (pre : List SwapEvent) (bad : SwapEvent) (rest : List SwapEvent)
    (hpre : ∀ e ∈ pre, (∃ l, e.liquidity = some l ∧ l ≠ 0) ∧
      ∃ ps, get_deployed_positions hist e.evt_block_number = .ok ps)
    (hbad : bad.liquidity = none ∨ bad.liquidity = some 0)
    (hbadblock : ∃ ps, get_deployed_positions hist bad.evt_block_number = .ok ps) :
    (∃ fees, fee_loop inRangeLiq fee_rate hist s0 pre = .ok fees) ∧
    fee_loop inRangeLiq fee_rate hist s0 (pre ++ bad :: rest) =
      .error (.liquidityMissing bad.id) := by
  induction pre generalizing s0 with
  | nil =>
    obtain ⟨ps, hps⟩ := hbadblock
    refine ⟨⟨s0, rfl⟩, ?_⟩
    rw [List.nil_append]
    unfold fee_loop
    rw [hps]
    rcases hbad with h | h
    · simp only [calculate_liquidity_share, h]
    · simp only [calculate_liquidity_share, h]
      simp
  | cons e pre' ih =>
    obtain ⟨⟨l, hl, hnz⟩, ps, hps⟩ := hpre e (List.mem_cons_self e pre')
    obtain ⟨s, hs⟩ := share_ok_of_liquidity hl hnz (inRangeLiq ps e)
    have hpre' : ∀ x ∈ pre', (∃ l, x.liquidity = some l ∧ l ≠ 0) ∧
        ∃ ps, get_deployed_positions hist x.evt_block_number = .ok ps :=
      fun x hx => hpre x (List.mem_cons_of_mem e hx)
    have step : ∀ (st : ℚ × ℚ) (tail : List SwapEvent),
        fee_loop inRangeLiq fee_rate hist st (e :: tail) =
          fee_loop inRangeLiq fee_rate hist
            (if e.amount0 > 0 then (st.1 + e.amount0 * fee_rate * s, st.2)
             else if e.amount1 > 0 then (st.1, st.2 + e.amount1 * fee_rate * s)
             else st) tail := by
      intro st tail
      unfold fee_loop
      simp only [hps, hs]
      cases tail <;> rfl
    obtain ⟨⟨fees, hfees⟩, herr⟩ := ih
      (if e.amount0 > 0 then (s0.1 + e.amount0 * fee_rate * s, s0.2)
       else if e.amount1 > 0 then (s0.1, s0.2 + e.amount1 * fee_rate * s)
       else s0) hpre'
    refine ⟨⟨fees, ?_⟩, ?_⟩
    · rw [step s0 pre']
      exact hfees
    · rw [List.cons_append, step s0 (pre' ++ bad :: rest)]
      exact herr

/-- Witness for C9: a two-event run whose second event lacks the
liquidity field fails with that event's id, while the one-event prefix
accrues fees without error. -/
theorem C9_witness :
    (∃ fees, fee_loop (fun _ _ => 0) 0 [⟨0, [], ⟨0, 0⟩⟩] (0, 0)
      [⟨1, 0, 1, 1, 0, some 5⟩] = .ok fees) ∧
    fee_loop (fun _ _ => 0) 0 [⟨0, [], ⟨0, 0⟩⟩] (0, 0)
      ([⟨1, 0, 1, 1, 0, some 5⟩] ++ ⟨2, 0, 2, 1, 0, none⟩ :: []) =
      .error (.liquidityMissing 2) :=
  C9_missing_liquidity_fails (fun _ _ => 0) 0 [⟨0, [], ⟨0, 0⟩⟩] (0, 0)
    [⟨1, 0, 1, 1, 0, some 5⟩] ⟨2, 0, 2, 1, 0, none⟩ []
    (fun e he => by
      cases he with
      | head =>
        exact ⟨⟨5, rfl, by norm_num⟩, ⟨[], rfl⟩⟩
      | tail _ h => cases h)
    (Or.inl rfl)
    ⟨[], rfl⟩
